import Mathlib

/-!
Verification development for the rspub-core publication state engine
(`model/executor_changelist.py`, `model/executors.py`).

The Python source is shallowly embedded: dictionaries become association
lists with insert-or-replace semantics (preserving insertion order, as
Python 3.7+ dicts do), the changelist generator becomes a structurally
recursive function over the list of classified change records, and
file-system state becomes an explicit list of (filename, document) pairs.
-/

namespace RsPub

/-- A resource record as produced by `Executor.resource_generator`
(`model/executors.py`): uri, length, last-modified, md5 content hash,
mime type; `change` and `md_datetime` are stamped onto the record by the
changelist generator (`resource.change = kv[0]`,
`resource.md_datetime = self.date_start_processing`).  Timestamps are the
w3c datetime strings the code carries around, kept abstract as `String`. -/
structure Resource where
  uri : String
  length : Nat
  lastmod : String
  md5 : String
  mimeType : String
  change : Option String
  md_datetime : Option String
  md_from : Option String := none
  md_until : Option String := none
deriving DecidableEq, Repr

/-- A Python dict keyed by uri, embedded as an association list kept in
insertion order. -/
abbrev Dict := List (String × Resource)

/-- Key membership test, `k in d`. -/
def dictMem (d : Dict) (k : String) : Bool :=
  d.any (fun p => p.1 == k)

/-- Dict lookup, `d[k]` (as an `Option`). -/
def dictGet? (d : Dict) (k : String) : Option Resource :=
  (d.find? (fun p => p.1 == k)).map (fun p => p.2)

/-- `d.update({k: v})`: replace in place when the key is present
(keeping its original position, as Python dicts do), else append. -/
def dictInsert (d : Dict) (k : String) (v : Resource) : Dict :=
  if dictMem d k then d.map (fun p => if p.1 == k then (k, v) else p)
  else d ++ [(k, v)]

/-- `del d[k]` (a no-op when the key is absent). -/
def dictRemove (d : Dict) (k : String) : Dict :=
  d.filter (fun p => p.1 != k)

/-- `d.values()`, in insertion order. -/
def dictValues (d : Dict) : List Resource :=
  d.map (fun p => p.2)

/-- `{resource.uri: resource for ... resource in ...}`: build a dict from a
resource sequence, later entries overwriting earlier ones. -/
def dictOfResources (rs : List Resource) : Dict :=
  rs.foldl (fun d r => dictInsert d r.uri r) []

/-- Well-formedness of a uri-keyed dict: keys are distinct and each entry's
key is its resource's uri (both hold for every dict the code builds). -/
def DictWF (d : Dict) : Prop :=
  (d.map (fun p => p.1)).Nodup ∧ ∀ p ∈ d, (p.2).uri = p.1

/-! ## Reconciliation (`ChangelistExecutor.changelist_generator`, lines 95-98)

    created = [r for r in curr_r.values() if r.uri not in prev_r]
    updated = [r for r in curr_r.values() if r.uri in prev_r and r.md5 != prev_r[r.uri].md5]
    deleted = [r for r in prev_r.values() if r.uri not in curr_r]
    unchang = [r for r in curr_r.values() if r.uri in prev_r and r.md5 == prev_r[r.uri].md5]
-/

def created_of (prev curr : Dict) : List Resource :=
  (dictValues curr).filter (fun r => !(dictMem prev r.uri))

def updated_of (prev curr : Dict) : List Resource :=
  (dictValues curr).filter (fun r =>
    match dictGet? prev r.uri with
    | some p => r.md5 != p.md5
    | none => false)

def deleted_of (prev curr : Dict) : List Resource :=
  (dictValues prev).filter (fun r => !(dictMem curr r.uri))

def unchanged_of (prev curr : Dict) : List Resource :=
  (dictValues curr).filter (fun r =>
    match dictGet? prev r.uri with
    | some p => r.md5 == p.md5
    | none => false)

/-! ### Basic dict lemmas -/

theorem dictMem_iff_get (d : Dict) (k : String) :
    dictMem d k = true ↔ (dictGet? d k).isSome := by
  induction d with
  | nil => simp [dictMem, dictGet?]
  | cons p d ih =>
    by_cases h : (p.1 == k) = true
    · simp [dictMem, dictGet?, List.find?_cons_of_pos _ h, h]
    · have h2 : dictMem (p :: d) k = dictMem d k := by
        simp [dictMem, List.any_cons, h]
      have h3 : dictGet? (p :: d) k = dictGet? d k := by
        unfold dictGet?
        have h4 : ¬((fun q : String × Resource => q.1 == k) p = true) := h
        rw [List.find?_cons_of_neg d h4]
      rw [h2, h3]
      exact ih

theorem dictGet?_eq_none_of_not_mem (d : Dict) (k : String)
    (h : dictMem d k = false) : dictGet? d k = none := by
  cases hg : dictGet? d k with
  | none => rfl
  | some v =>
    have hm : dictMem d k = true := (dictMem_iff_get d k).mpr (by simp [hg])
    rw [h] at hm
    cases hm

/-! ## The changelist document and the generator
(`ChangelistExecutor.changelist_generator`, lines 88-143) -/

/-- A changelist document (the fields of the external `ChangeList` object the
generator reads and writes): validity window, index flag, and the ordered
resource sequence (`changelist.add` appends). -/
structure ChangeList where
  md_from : Option String := none
  md_until : Option String := none
  sitemapindex : Bool := false
  index_link : Option String := none
  resources : List Resource := []
deriving DecidableEq, Repr

/-- `resource.change = kv[0]; resource.md_datetime = self.date_start_processing`
(lines 125-126). -/
def stamp (kind : String) (dStart : String) (r : Resource) : Resource :=
  { r with change := some kind, md_datetime := some dStart }

/-- `all_changes = {"created": created, "updated": updated, "deleted": deleted}`
iterated in insertion order (line 106 and the loop over `all_changes.items()`). -/
def taggedChanges (prev curr : Dict) : List (String × Resource) :=
  (created_of prev curr).map (fun r => ("created", r))
    ++ (updated_of prev curr).map (fun r => ("updated", r))
    ++ (deleted_of prev curr).map (fun r => ("deleted", r))

/-- The body of the `for kv in all_changes.items(): for resource in kv[1]:`
loop (lines 119-135), recursing over the flattened tagged change records.
State: the current open changelist (`changelist`), the cumulative
`resource_count`, and `ordinal`.  Returns the yielded `(ordinal, changelist)`
pairs together with the final open changelist and final ordinal. -/
def genLoop (m : Nat) (mdFrom : Option String) (dStart : String) :
    List (String × Resource) → Option ChangeList → Nat → Int →
      List (Int × ChangeList) × Option ChangeList × Int
  | [], cl?, _, ord => ([], cl?, ord)
  | (kind, r) :: rest, cl?, count, ord =>
    let cl := cl?.getD { md_from := mdFrom }
    let cl' := { cl with resources := cl.resources ++ [stamp kind dStart r] }
    let count' := count + 1
    if count' % m = 0 then
      let out := genLoop m mdFrom dStart rest none count' (ord + 1)
      ((ord + 1, cl') :: out.1, out.2)
    else
      genLoop m mdFrom dStart rest (some cl') count' ord

/-- Lines 110-117: the resume-document adjustment performed before the loop.
`if changelist:` treats a supplied resume document as present (the resume
document is only ever the last previously written changelist, which is
non-empty); `if resource_count >= self.max_items_in_list:` discards an
already-full document.  Returns the adjusted (changelist, resource_count,
ordinal) triple. -/
def resumeAdjust (m : Nat) (resume : Option ChangeList) (ord : Int) :
    Option ChangeList × Nat × Int :=
  match resume with
  | none => (none, 0, ord)
  | some cl =>
    let ord1 := ord - 1
    let rc := cl.resources.length
    if rc ≥ m then (none, 0, ord1 + 1)
    else (some cl, rc, ord1)

/-- The generator `generator(changelist=None)` (lines 90-141) as a whole:
classification, resume adjustment, the pagination loop, and the final
`if changelist and tot_changes > 0:` yield.  `lastOrdinal` is the value of
`self.find_ordinal(Capability.changelist.name)` (line 108). -/
def changelist_generator (m : Nat) (mdFrom : Option String) (dStart : String)
    (prev curr : Dict) (resume : Option ChangeList) (lastOrdinal : Int) :
    List (Int × ChangeList) :=
  let tot := (created_of prev curr).length + (updated_of prev curr).length
    + (deleted_of prev curr).length
  let a := resumeAdjust m resume lastOrdinal
  let out := genLoop m mdFrom dStart (taggedChanges prev curr) a.1 a.2.1 a.2.2
  out.1 ++ (match out.2.1 with
    | some cl => if tot > 0 then [(out.2.2 + 1, cl)] else []
    | none => [])

/-- Reference chunking function: split a list into consecutive chunks of
`m` elements, the last chunk possibly shorter (meaningful for `m ≥ 1`). -/
def chunkList (m : Nat) : List α → List (List α)
  | [] => []
  | x :: xs => (x :: xs).take m :: chunkList m (xs.drop (m - 1))
termination_by l => l.length
decreasing_by
  simp only [List.length_drop, List.length_cons]
  omega

/-- The resource lists of the closed documents of a loop state, together with
the still-open document's resources (if any). -/
def docsRes (out : List (Int × ChangeList) × Option ChangeList × Int) :
    List (List Resource) :=
  out.1.map (fun p => p.2.resources) ++ (match out.2.1 with
    | some cl => [cl.resources]
    | none => [])

/-- The tagged change records after stamping (lines 125-126). -/
def stamped (d : String) (tags : List (String × Resource)) : List Resource :=
  tags.map (fun kr => stamp kr.1 d kr.2)

theorem stamped_nil (d : String) : stamped d [] = [] := rfl

theorem stamped_cons (d : String) (kr : String × Resource)
    (tags : List (String × Resource)) :
    stamped d (kr :: tags) = stamp kr.1 d kr.2 :: stamped d tags := rfl

theorem stamped_take (d : String) (k : Nat) (tags : List (String × Resource)) :
    stamped d (tags.take k) = (stamped d tags).take k := by
  simp [stamped, List.map_take]

theorem stamped_drop (d : String) (k : Nat) (tags : List (String × Resource)) :
    stamped d (tags.drop k) = (stamped d tags).drop k := by
  simp [stamped, List.map_drop]

/-- Successor modulo a positive base, split on whether the base is reached. -/
theorem succ_mod (m count : Nat) (hm : 1 ≤ m) :
    (count + 1) % m = if count % m + 1 = m then 0 else count % m + 1 := by
  have hq := Nat.div_add_mod count m
  have hlt : count % m < m := Nat.mod_lt _ hm
  by_cases h : count % m + 1 = m
  · rw [if_pos h]
    have he : count + 1 = m * (count / m + 1) := by
      rw [Nat.mul_add, Nat.mul_one]
      omega
    rw [he, Nat.mul_mod_right]
  · rw [if_neg h]
    have he : count + 1 = m * (count / m) + (count % m + 1) := by omega
    rw [he, Nat.mul_add_mod]
    exact Nat.mod_eq_of_lt (by omega)

theorem genLoop_nil (m : Nat) (f : Option String) (d : String)
    (cl? : Option ChangeList) (count : Nat) (ord : Int) :
    genLoop m f d [] cl? count ord = ([], cl?, ord) := rfl

theorem genLoop_cons_none (m : Nat) (f : Option String) (d : String)
    (kind : String) (r : Resource) (rest : List (String × Resource))
    (count : Nat) (ord : Int) :
    genLoop m f d ((kind, r) :: rest) none count ord =
      if (count + 1) % m = 0 then
        ((ord + 1, { md_from := f, resources := [stamp kind d r] }) ::
            (genLoop m f d rest none (count + 1) (ord + 1)).1,
          (genLoop m f d rest none (count + 1) (ord + 1)).2)
      else
        genLoop m f d rest (some { md_from := f, resources := [stamp kind d r] })
          (count + 1) ord := rfl

theorem genLoop_cons_some (m : Nat) (f : Option String) (d : String)
    (kind : String) (r : Resource) (rest : List (String × Resource))
    (cl : ChangeList) (count : Nat) (ord : Int) :
    genLoop m f d ((kind, r) :: rest) (some cl) count ord =
      if (count + 1) % m = 0 then
        ((ord + 1, { cl with resources := cl.resources ++ [stamp kind d r] }) ::
            (genLoop m f d rest none (count + 1) (ord + 1)).1,
          (genLoop m f d rest none (count + 1) (ord + 1)).2)
      else
        genLoop m f d rest
          (some { cl with resources := cl.resources ++ [stamp kind d r] })
          (count + 1) ord := rfl

theorem docsRes_cons (p : Int × ChangeList) (ys : List (Int × ChangeList))
    (st : Option ChangeList × Int) :
    docsRes (p :: ys, st) = p.2.resources :: docsRes (ys, st) := by
  simp [docsRes]

/-- The right-hand side of the pagination loop characterisation. -/
def genSpecRHS (m : Nat) (d : String) (cl? : Option ChangeList) (count : Nat)
    (tags : List (String × Resource)) : List (List Resource) :=
  match cl?, tags with
  | none, _ => chunkList m (stamped d tags)
  | some cl, [] => [cl.resources]
  | some cl, _ :: _ =>
      (cl.resources ++ (stamped d tags).take (m - count % m))
        :: chunkList m ((stamped d tags).drop (m - count % m))

theorem genSpecRHS_none (m : Nat) (d : String) (count : Nat)
    (tags : List (String × Resource)) :
    genSpecRHS m d none count tags = chunkList m (stamped d tags) := by
  cases tags <;> rfl

theorem genSpecRHS_some_nil (m : Nat) (d : String) (cl : ChangeList)
    (count : Nat) : genSpecRHS m d (some cl) count [] = [cl.resources] := rfl

theorem genSpecRHS_some_cons (m : Nat) (d : String) (cl : ChangeList)
    (count : Nat) (kr : String × Resource) (tags : List (String × Resource)) :
    genSpecRHS m d (some cl) count (kr :: tags) =
      (cl.resources ++ (stamped d (kr :: tags)).take (m - count % m))
        :: chunkList m ((stamped d (kr :: tags)).drop (m - count % m)) := rfl

/-- Main characterisation of the pagination loop: the closed documents plus
the final open document hold precisely the chunks of the stamped change
records, with the open resumed document (if any) filled first up to the next
multiple of `maxItems` of the cumulative resource count. -/
theorem genLoop_spec (m : Nat) (f : Option String) (d : String) (hm : 1 ≤ m) :
    ∀ (tags : List (String × Resource)) (cl? : Option ChangeList)
      (count : Nat) (ord : Int),
      (cl? = none → count % m = 0) →
      docsRes (genLoop m f d tags cl? count ord) =
        genSpecRHS m d cl? count tags := by
  intro tags
  induction tags with
  | nil =>
    intro cl? count ord h
    cases cl? <;>
      simp [genLoop_nil, docsRes, genSpecRHS, chunkList, stamped]
  | cons kr rest ih =>
    obtain ⟨kind, r⟩ := kr
    intro cl? count ord h
    have hsm := succ_mod m count hm
    have hlt : count % m < m := Nat.mod_lt _ hm
    cases cl? with
    | none =>
      have hc : count % m = 0 := h rfl
      rw [hc] at hsm
      rw [genSpecRHS_none, stamped_cons]
      by_cases h1 : (count + 1) % m = 0
      · have hm1 : m = 1 := by
          by_contra hne
          rw [if_neg (by omega)] at hsm
          omega
        subst hm1
        rw [genLoop_cons_none, if_pos h1, docsRes_cons]
        simp only [Prod.mk.eta]
        rw [ih none (count + 1) (ord + 1) (fun _ => h1), genSpecRHS_none]
        rw [chunkList]
        simp
      · have h2m : 2 ≤ m := by
          by_contra hle
          have hm1 : m = 1 := by omega
          subst hm1
          rw [if_pos (by omega)] at hsm
          exact h1 hsm
        rw [genLoop_cons_none, if_neg h1]
        rw [ih (some { md_from := f, resources := [stamp kind d r] })
          (count + 1) ord (by intro hcon; cases hcon)]
        cases rest with
        | nil =>
          rw [genSpecRHS_some_nil, chunkList]
          obtain ⟨k, rfl⟩ : ∃ k, m = k + 1 := ⟨m - 1, by omega⟩
          simp [chunkList, stamped_nil]
        | cons kr2 rest2 =>
          have hmod : (count + 1) % m = 1 := by
            rw [if_neg (by omega)] at hsm
            omega
          rw [genSpecRHS_some_cons, hmod, chunkList]
          obtain ⟨k, rfl⟩ : ∃ k, m = k + 1 := ⟨m - 1, by omega⟩
          simp [stamped_cons, List.take_succ_cons, List.drop_succ_cons]
    | some cl =>
      rw [genSpecRHS_some_cons, stamped_cons]
      by_cases h1 : (count + 1) % m = 0
      · have hend : count % m + 1 = m := by
          by_contra hne
          rw [if_neg hne] at hsm
          omega
        have hs : m - count % m = 1 := by omega
        rw [genLoop_cons_some, if_pos h1, docsRes_cons]
        simp only [Prod.mk.eta]
        rw [ih none (count + 1) (ord + 1) (fun _ => h1), genSpecRHS_none]
        rw [hs]
        simp
      · have hmid : count % m + 1 ≠ m := by
          intro hcon
          rw [if_pos hcon] at hsm
          exact h1 hsm
        have hmod : (count + 1) % m = count % m + 1 := by
          rw [if_neg hmid] at hsm
          omega
        have hs : 2 ≤ m - count % m := by omega
        rw [genLoop_cons_some, if_neg h1]
        rw [ih (some { cl with resources := cl.resources ++ [stamp kind d r] })
          (count + 1) ord (by intro hcon; cases hcon)]
        obtain ⟨j, hj⟩ : ∃ j, m - count % m = j + 1 :=
          ⟨m - count % m - 1, by omega⟩
        cases rest with
        | nil =>
          rw [genSpecRHS_some_nil, hj, List.take_succ_cons, List.drop_succ_cons]
          have hj1 : 1 ≤ j := by omega
          have ht : (stamped d ([] : List (String × Resource))).take j = [] := by
            simp [stamped]
          have hd : (stamped d ([] : List (String × Resource))).drop j = [] := by
            simp [stamped]
          rw [stamped_nil] at ht hd ⊢
          simp [chunkList]
        | cons kr2 rest2 =>
          rw [genSpecRHS_some_cons, hmod, hj]
          have hj2 : m - (count % m + 1) = j := by omega
          rw [hj2, List.take_succ_cons, List.drop_succ_cons]
          simp


/-! ### Chunk arithmetic -/

theorem chunkList_eq_nil_iff (m : Nat) (l : List α) :
    chunkList m l = [] ↔ l = [] := by
  cases l <;> simp [chunkList]

theorem chunkList_join_fuel (m : Nat) (hm : 1 ≤ m) :
    ∀ (n : Nat) (l : List α), l.length ≤ n → (chunkList m l).flatten = l := by
  intro n
  induction n with
  | zero =>
    intro l h
    have : l = [] := by
      cases l with
      | nil => rfl
      | cons x xs => simp at h
    subst this
    simp [chunkList]
  | succ n ih =>
    intro l h
    cases l with
    | nil => simp [chunkList]
    | cons x xs =>
      rw [chunkList]
      rw [List.flatten_cons]
      rw [ih (xs.drop (m - 1)) (by simp at h ⊢; omega)]
      obtain ⟨k, rfl⟩ : ∃ k, m = k + 1 := ⟨m - 1, by omega⟩
      rw [List.take_succ_cons]
      simp [List.take_append_drop]

theorem chunkList_join (m : Nat) (hm : 1 ≤ m) (l : List α) :
    (chunkList m l).flatten = l :=
  chunkList_join_fuel m hm l.length l le_rfl

theorem chunkList_length_fuel (m : Nat) (hm : 1 ≤ m) :
    ∀ (n : Nat) (l : List α), l.length ≤ n →
      (chunkList m l).length = (l.length + m - 1) / m := by
  intro n
  induction n with
  | zero =>
    intro l h
    have hl : l = [] := by
      cases l with
      | nil => rfl
      | cons x xs => simp at h
    subst hl
    rw [chunkList]
    simp [Nat.div_eq_of_lt (by omega : m - 1 < m)]
  | succ n ih =>
    intro l h
    cases l with
    | nil =>
      rw [chunkList]
      simp [Nat.div_eq_of_lt (by omega : m - 1 < m)]
    | cons x xs =>
      rw [chunkList]
      rw [List.length_cons, ih (xs.drop (m - 1)) (by simp at h ⊢; omega)]
      rw [List.length_drop, List.length_cons]
      by_cases hc : m - 1 ≤ xs.length
      · have h1 : xs.length - (m - 1) + m - 1 = xs.length := by omega
        have h2 : xs.length + 1 + m - 1 = xs.length + m := by omega
        rw [h1, h2]
        rw [Nat.add_div_right _ (by omega : 0 < m)]
      · have h1 : xs.length - (m - 1) = 0 := by omega
        have h2 : xs.length + 1 + m - 1 = xs.length + m := by omega
        rw [h1, h2]
        rw [Nat.add_div_right _ (by omega : 0 < m)]
        rw [Nat.div_eq_of_lt (by omega : 0 + m - 1 < m)]
        rw [Nat.div_eq_of_lt (by omega : xs.length < m)]

theorem chunkList_length (m : Nat) (hm : 1 ≤ m) (l : List α) :
    (chunkList m l).length = (l.length + m - 1) / m :=
  chunkList_length_fuel m hm l.length l le_rfl

theorem chunkList_mem_le_fuel (m : Nat) (hm : 1 ≤ m) :
    ∀ (n : Nat) (l : List α), l.length ≤ n →
      ∀ c ∈ chunkList m l, c.length ≤ m := by
  intro n
  induction n with
  | zero =>
    intro l h c hc
    have hl : l = [] := by
      cases l with
      | nil => rfl
      | cons x xs => simp at h
    subst hl
    rw [chunkList] at hc
    simp at hc
  | succ n ih =>
    intro l h c hc
    cases l with
    | nil =>
      rw [chunkList] at hc
      simp at hc
    | cons x xs =>
      rw [chunkList] at hc
      rcases List.mem_cons.mp hc with hc1 | hc2
      · subst hc1
        rw [List.length_take]
        omega
      · exact ih (xs.drop (m - 1)) (by simp at h ⊢; omega) c hc2

theorem chunkList_mem_le (m : Nat) (hm : 1 ≤ m) (l : List α) :
    ∀ c ∈ chunkList m l, c.length ≤ m :=
  chunkList_mem_le_fuel m hm l.length l le_rfl

theorem chunkList_dropLast_fuel (m : Nat) (hm : 1 ≤ m) :
    ∀ (n : Nat) (l : List α), l.length ≤ n →
      ∀ c ∈ (chunkList m l).dropLast, c.length = m := by
  intro n
  induction n with
  | zero =>
    intro l h c hc
    have hl : l = [] := by
      cases l with
      | nil => rfl
      | cons x xs => simp at h
    subst hl
    rw [chunkList] at hc
    simp at hc
  | succ n ih =>
    intro l h c hc
    cases l with
    | nil =>
      rw [chunkList] at hc
      simp at hc
    | cons x xs =>
      rw [chunkList] at hc
      cases hrec : chunkList m (xs.drop (m - 1)) with
      | nil =>
        rw [hrec] at hc
        simp at hc
      | cons c2 cs =>
        rw [hrec] at hc
        rw [List.dropLast_cons_of_ne_nil (by simp)] at hc
        rcases List.mem_cons.mp hc with hc1 | hc2
        · subst hc1
          have hne : xs.drop (m - 1) ≠ [] := by
            intro hcon
            rw [hcon, chunkList] at hrec
            cases hrec
          have hxs : m - 1 < xs.length := by
            by_contra hle
            exact hne (List.drop_eq_nil_of_le (by omega))
          rw [List.length_take, List.length_cons]
          omega
        · rw [← hrec] at hc2
          exact ih (xs.drop (m - 1)) (by simp at h ⊢; omega) c hc2

theorem chunkList_dropLast (m : Nat) (hm : 1 ≤ m) (l : List α) :
    ∀ c ∈ (chunkList m l).dropLast, c.length = m :=
  chunkList_dropLast_fuel m hm l.length l le_rfl

theorem chunkList_getLast?_fuel (m : Nat) (hm : 1 ≤ m) :
    ∀ (n : Nat) (l : List α), l.length ≤ n →
      ∀ c, (chunkList m l).getLast? = some c →
        c.length = if l.length % m = 0 then m else l.length % m := by
  intro n
  induction n with
  | zero =>
    intro l h c hc
    have hl : l = [] := by
      cases l with
      | nil => rfl
      | cons x xs => simp at h
    subst hl
    rw [chunkList] at hc
    cases hc
  | succ n ih =>
    intro l h c hc
    cases l with
    | nil =>
      rw [chunkList] at hc
      cases hc
    | cons x xs =>
      rw [chunkList] at hc
      cases hrec : chunkList m (xs.drop (m - 1)) with
      | nil =>
        rw [hrec] at hc
        simp at hc
        have hxs : xs.length ≤ m - 1 := by
          by_contra hgt
          have hne2 : xs.drop (m - 1) ≠ [] := by
            intro hcon
            have hle := List.drop_eq_nil_iff.mp hcon
            omega
          exact hne2 ((chunkList_eq_nil_iff m _).mp hrec)
        subst hc
        rw [List.length_take, List.length_cons]
        by_cases he : xs.length + 1 = m
        · rw [if_pos (by rw [he, Nat.mod_self])]
          omega
        · have hlt : xs.length + 1 < m := by omega
          rw [if_neg (by rw [Nat.mod_eq_of_lt hlt]; omega)]
          rw [Nat.mod_eq_of_lt hlt]
          omega
      | cons c2 cs =>
        rw [hrec] at hc
        rw [List.getLast?_cons_cons] at hc
        rw [← hrec] at hc
        have hne : xs.drop (m - 1) ≠ [] := by
          intro hcon
          rw [hcon, chunkList] at hrec
          cases hrec
        have hxs : m - 1 < xs.length := by
          by_contra hle
          exact hne (List.drop_eq_nil_of_le (by omega))
        have hstep := ih (xs.drop (m - 1)) (by simp at h ⊢; omega) c hc
        rw [List.length_drop] at hstep
        have hmod : (xs.length - (m - 1)) % m = (xs.length + 1) % m := by
          have he : xs.length + 1 - m = xs.length - (m - 1) := by omega
          rw [← he]
          exact (Nat.mod_eq_sub_mod (by omega)).symm
        rw [hmod] at hstep
        rw [List.length_cons]
        exact hstep

theorem chunkList_getLast? (m : Nat) (hm : 1 ≤ m) (l : List α) :
    ∀ c, (chunkList m l).getLast? = some c →
      c.length = if l.length % m = 0 then m else l.length % m :=
  chunkList_getLast?_fuel m hm l.length l le_rfl

/-! ### From the generator to chunks -/

theorem taggedChanges_length (prev curr : Dict) :
    (taggedChanges prev curr).length =
      (created_of prev curr).length + (updated_of prev curr).length
        + (deleted_of prev curr).length := by
  simp [taggedChanges]
  omega

/-- `changelist_generator` with no resume document, unfolded. -/
theorem changelist_generator_fresh_eq (m : Nat) (f : Option String)
    (dS : String) (prev curr : Dict) (o : Int) :
    changelist_generator m f dS prev curr none o =
      (genLoop m f dS (taggedChanges prev curr) none 0 o).1 ++
        (match (genLoop m f dS (taggedChanges prev curr) none 0 o).2.1 with
         | some cl =>
             if (created_of prev curr).length + (updated_of prev curr).length
                 + (deleted_of prev curr).length > 0 then
               [((genLoop m f dS (taggedChanges prev curr) none 0 o).2.2 + 1, cl)]
             else []
         | none => []) := rfl

/-- In a fresh run the emitted documents' resource lists are exactly the
`maxItems`-chunks of the stamped classified changes. -/
theorem generator_fresh_map (m : Nat) (hm : 1 ≤ m) (f : Option String)
    (dS : String) (prev curr : Dict) (o : Int) :
    (changelist_generator m f dS prev curr none o).map (fun p => p.2.resources)
      = chunkList m (stamped dS (taggedChanges prev curr)) := by
  have hspec := genLoop_spec m f dS hm (taggedChanges prev curr) none 0 o
    (fun _ => Nat.zero_mod m)
  rw [genSpecRHS_none] at hspec
  unfold docsRes at hspec
  cases hsnd : (genLoop m f dS (taggedChanges prev curr) none 0 o).2.1 with
  | none =>
    rw [hsnd] at hspec
    simp only [List.append_nil] at hspec
    rw [changelist_generator_fresh_eq, hsnd]
    simpa using hspec
  | some cl =>
    have htags : taggedChanges prev curr ≠ [] := by
      intro hcon
      rw [hcon, genLoop_nil] at hsnd
      cases hsnd
    have htot : (created_of prev curr).length + (updated_of prev curr).length
        + (deleted_of prev curr).length > 0 := by
      have h1 := taggedChanges_length prev curr
      have h2 : 0 < (taggedChanges prev curr).length :=
        List.length_pos.mpr htags
      omega
    rw [changelist_generator_fresh_eq, hsnd]
    rw [hsnd] at hspec
    simp only [] at hspec ⊢
    rw [if_pos htot]
    simp only [List.map_append, List.map_cons, List.map_nil] at hspec ⊢
    exact hspec

/-- C2: in a fresh run with capacity m and n classified change records, the
paginator emits exactly ceil(n/m) documents; no document exceeds m resources;
every document but the last holds exactly m; the last holds n mod m (m when
m divides n); and n = 0 yields no documents at all. -/
theorem claim_C2 (m : Nat) (hm : 1 ≤ m) (f : Option String)
    (dS : String) (prev curr : Dict) (o : Int) :
    (changelist_generator m f dS prev curr none o).length
        = ((taggedChanges prev curr).length + m - 1) / m
    ∧ (∀ p ∈ changelist_generator m f dS prev curr none o,
        p.2.resources.length ≤ m)
    ∧ (∀ p ∈ (changelist_generator m f dS prev curr none o).dropLast,
        p.2.resources.length = m)
    ∧ (∀ p, (changelist_generator m f dS prev curr none o).getLast? = some p →
        p.2.resources.length =
          if (taggedChanges prev curr).length % m = 0 then m
          else (taggedChanges prev curr).length % m)
    ∧ ((taggedChanges prev curr).length = 0 →
        changelist_generator m f dS prev curr none o = []) := by
  have hmap := generator_fresh_map m hm f dS prev curr o
  have hslen : (stamped dS (taggedChanges prev curr)).length
      = (taggedChanges prev curr).length := by
    simp [stamped]
  refine ⟨?_, ?_, ?_, ?_, ?_⟩
  · have h1 : (changelist_generator m f dS prev curr none o).length
        = ((changelist_generator m f dS prev curr none o).map
            (fun p => p.2.resources)).length := by
      rw [List.length_map]
    rw [h1, hmap, chunkList_length m hm, hslen]
  · intro p hp
    have hmem : p.2.resources ∈ chunkList m (stamped dS (taggedChanges prev curr)) := by
      rw [← hmap]
      exact List.mem_map_of_mem _ hp
    exact chunkList_mem_le m hm _ _ hmem
  · intro p hp
    have hmem : p.2.resources ∈ (chunkList m (stamped dS (taggedChanges prev curr))).dropLast := by
      rw [← hmap, ← List.map_dropLast]
      exact List.mem_map_of_mem _ hp
    exact chunkList_dropLast m hm _ _ hmem
  · intro p hp
    have hlast : (chunkList m (stamped dS (taggedChanges prev curr))).getLast?
        = some p.2.resources := by
      rw [← hmap, List.getLast?_map, hp]
      rfl
    have := chunkList_getLast? m hm _ _ hlast
    rw [hslen] at this
    exact this
  · intro hn
    have htags : taggedChanges prev curr = [] := List.length_eq_zero.mp hn
    rw [changelist_generator_fresh_eq, htags, genLoop_nil]
    simp

/-! ### Ordinal bookkeeping of the loop -/

theorem genLoop_ordinals (m : Nat) (f : Option String) (d : String) :
    ∀ (tags : List (String × Resource)) (cl? : Option ChangeList)
      (count : Nat) (ord : Int),
      ((genLoop m f d tags cl? count ord).1 = [] →
        (genLoop m f d tags cl? count ord).2.2 = ord)
      ∧ (∀ p ys, (genLoop m f d tags cl? count ord).1 = p :: ys →
          p.1 = ord + 1) := by
  intro tags
  induction tags with
  | nil =>
    intro cl? count ord
    refine ⟨fun _ => rfl, fun p ys h => ?_⟩
    rw [genLoop_nil] at h
    cases h
  | cons kr rest ih =>
    obtain ⟨kind, r⟩ := kr
    intro cl? count ord
    by_cases h1 : (count + 1) % m = 0
    · cases cl? with
      | none =>
        rw [genLoop_cons_none, if_pos h1]
        refine ⟨fun hcon => ?_, fun p ys h => ?_⟩
        · cases hcon
        · cases h
          rfl
      | some cl =>
        rw [genLoop_cons_some, if_pos h1]
        refine ⟨fun hcon => ?_, fun p ys h => ?_⟩
        · cases hcon
        · cases h
          rfl
    · cases cl? with
      | none =>
        rw [genLoop_cons_none, if_neg h1]
        exact ih _ (count + 1) ord
      | some cl =>
        rw [genLoop_cons_some, if_neg h1]
        exact ih _ (count + 1) ord

/-- In a fresh sequence the first emitted document carries ordinal
`lastOrdinal + 1`. -/
theorem generator_fresh_head_ordinal (m : Nat) (f : Option String)
    (dS : String) (prev curr : Dict) (o : Int) :
    ∀ p, (changelist_generator m f dS prev curr none o).head? = some p →
      p.1 = o + 1 := by
  intro p hp
  rw [changelist_generator_fresh_eq] at hp
  have hord := genLoop_ordinals m f dS (taggedChanges prev curr) none 0 o
  cases hout : (genLoop m f dS (taggedChanges prev curr) none 0 o).1 with
  | nil =>
    rw [hout] at hp
    rw [List.nil_append] at hp
    cases hsnd : (genLoop m f dS (taggedChanges prev curr) none 0 o).2.1 with
    | none =>
      rw [hsnd] at hp
      cases hp
    | some cl =>
      rw [hsnd] at hp
      simp only [] at hp
      by_cases htot : (created_of prev curr).length + (updated_of prev curr).length
          + (deleted_of prev curr).length > 0
      · rw [if_pos htot] at hp
        have he : ((genLoop m f dS (taggedChanges prev curr) none 0 o).2.2 + 1, cl)
            = p := by
          simpa using hp
        rw [← he]
        rw [hord.1 hout]
      · rw [if_neg htot] at hp
        cases hp
  | cons q ys =>
    rw [hout] at hp
    have he : q = p := by simpa using hp
    rw [← he]
    exact hord.2 q ys hout

/-- Resume path, already-full document (lines 114-117): the supplied document
is discarded and the run proceeds exactly as a fresh one. -/
theorem changelist_generator_resume_ge (m : Nat) (f : Option String)
    (dS : String) (prev curr : Dict) (cl : ChangeList) (o : Int)
    (hk : cl.resources.length ≥ m) :
    changelist_generator m f dS prev curr (some cl) o =
      changelist_generator m f dS prev curr none o := by
  unfold changelist_generator resumeAdjust
  simp only [if_pos hk, Int.sub_add_cancel]

/-- Resume path, unfilled document: unfolded form of the generator. -/
theorem changelist_generator_resume_lt (m : Nat) (f : Option String)
    (dS : String) (prev curr : Dict) (cl : ChangeList) (o : Int)
    (hk : ¬ cl.resources.length ≥ m) :
    changelist_generator m f dS prev curr (some cl) o =
      (genLoop m f dS (taggedChanges prev curr) (some cl)
          cl.resources.length (o - 1)).1 ++
        (match (genLoop m f dS (taggedChanges prev curr) (some cl)
            cl.resources.length (o - 1)).2.1 with
         | some c =>
             if (created_of prev curr).length + (updated_of prev curr).length
                 + (deleted_of prev curr).length > 0 then
               [((genLoop m f dS (taggedChanges prev curr) (some cl)
                   cl.resources.length (o - 1)).2.2 + 1, c)]
             else []
         | none => []) := by
  unfold changelist_generator resumeAdjust
  simp only [if_neg hk]

/-- Resume path with an unfilled document: the emitted documents are the
resumed document filled to the next capacity boundary, followed by the
chunks of the remaining stamped changes. -/
theorem generator_resume_map (m : Nat) (f : Option String) (dS : String)
    (prev curr : Dict) (cl : ChangeList) (o : Int)
    (hk : cl.resources.length < m)
    (htags : taggedChanges prev curr ≠ []) :
    (changelist_generator m f dS prev curr (some cl) o).map
        (fun p => p.2.resources)
      = (cl.resources ++ (stamped dS (taggedChanges prev curr)).take
            (m - cl.resources.length))
          :: chunkList m ((stamped dS (taggedChanges prev curr)).drop
            (m - cl.resources.length)) := by
  obtain ⟨kr, rest, hcons⟩ : ∃ kr rest, taggedChanges prev curr = kr :: rest := by
    cases h : taggedChanges prev curr with
    | nil => exact absurd h htags
    | cons a b => exact ⟨a, b, rfl⟩
  have hspec := genLoop_spec m f dS (by omega) (taggedChanges prev curr)
    (some cl) cl.resources.length (o - 1) (by intro hcon; cases hcon)
  rw [hcons] at hspec
  rw [genSpecRHS_some_cons] at hspec
  rw [← hcons] at hspec
  rw [Nat.mod_eq_of_lt hk] at hspec
  rw [changelist_generator_resume_lt m f dS prev curr cl o (by omega)]
  unfold docsRes at hspec
  have htot : (created_of prev curr).length + (updated_of prev curr).length
      + (deleted_of prev curr).length > 0 := by
    have h1 := taggedChanges_length prev curr
    have h2 : 0 < (taggedChanges prev curr).length := List.length_pos.mpr htags
    omega
  cases hsnd : (genLoop m f dS (taggedChanges prev curr) (some cl)
      cl.resources.length (o - 1)).2.1 with
  | none =>
    rw [hsnd] at hspec
    simp only [List.append_nil] at hspec
    simp only [List.append_nil]
    exact hspec
  | some c =>
    rw [hsnd] at hspec
    simp only [] at hspec ⊢
    rw [if_pos htot]
    simp only [List.map_append, List.map_cons, List.map_nil] at hspec ⊢
    exact hspec

/-- Resume path with an unfilled document: the first emitted document keeps
the resumed document's ordinal (`lastOrdinal`, the decremented counter plus
one). -/
theorem generator_resume_head_ordinal (m : Nat) (f : Option String)
    (dS : String) (prev curr : Dict) (cl : ChangeList) (o : Int)
    (hk : ¬ cl.resources.length ≥ m) :
    ∀ p, (changelist_generator m f dS prev curr (some cl) o).head? = some p →
      p.1 = o := by
  intro p hp
  rw [changelist_generator_resume_lt m f dS prev curr cl o hk] at hp
  have hord := genLoop_ordinals m f dS (taggedChanges prev curr) (some cl)
    cl.resources.length (o - 1)
  cases hout : (genLoop m f dS (taggedChanges prev curr) (some cl)
      cl.resources.length (o - 1)).1 with
  | nil =>
    rw [hout, List.nil_append] at hp
    cases hsnd : (genLoop m f dS (taggedChanges prev curr) (some cl)
        cl.resources.length (o - 1)).2.1 with
    | none =>
      rw [hsnd] at hp
      cases hp
    | some c =>
      rw [hsnd] at hp
      simp only [] at hp
      by_cases htot : (created_of prev curr).length + (updated_of prev curr).length
          + (deleted_of prev curr).length > 0
      · rw [if_pos htot] at hp
        have he : ((genLoop m f dS (taggedChanges prev curr) (some cl)
            cl.resources.length (o - 1)).2.2 + 1, c) = p := by
          simpa using hp
        rw [← he]
        rw [hord.1 hout]
        omega
      · rw [if_neg htot] at hp
        cases hp
  | cons q ys =>
    rw [hout] at hp
    have he : q = p := by simpa using hp
    rw [← he]
    have hq := hord.2 q ys hout
    omega

/-- C3: a resume document holding at least maxItems resources is discarded
and a fresh sequence starts at lastOrdinal + 1; one holding k < maxItems
resources keeps its own ordinal, is filled to min(k+j, maxItems) resources
before any new document is opened, and when k+j > maxItems the subsequent
documents receive the remaining k+j-maxItems records. -/
theorem claim_C3 (m : Nat) (hm : 1 ≤ m) (f : Option String) (dS : String)
    (prev curr : Dict) (cl : ChangeList) (o : Int) :
    (cl.resources.length ≥ m →
      changelist_generator m f dS prev curr (some cl) o
          = changelist_generator m f dS prev curr none o
        ∧ (∀ p, (changelist_generator m f dS prev curr (some cl) o).head?
              = some p → p.1 = o + 1))
    ∧ (cl.resources.length < m → taggedChanges prev curr ≠ [] →
        ∃ p rest, changelist_generator m f dS prev curr (some cl) o = p :: rest
          ∧ p.1 = o
          ∧ p.2.resources = cl.resources
              ++ (stamped dS (taggedChanges prev curr)).take
                (m - cl.resources.length)
          ∧ p.2.resources.length
              = min (cl.resources.length + (taggedChanges prev curr).length) m
          ∧ (cl.resources.length + (taggedChanges prev curr).length > m →
              (rest.map (fun q => q.2.resources.length)).sum
                = cl.resources.length + (taggedChanges prev curr).length - m)) := by
  constructor
  · intro hk
    have hge := changelist_generator_resume_ge m f dS prev curr cl o hk
    refine ⟨hge, fun p hp => ?_⟩
    rw [hge] at hp
    exact generator_fresh_head_ordinal m f dS prev curr o p hp
  · intro hk htags
    have hmap := generator_resume_map m f dS prev curr cl o hk htags
    have hS : (stamped dS (taggedChanges prev curr)).length
        = (taggedChanges prev curr).length := by
      simp [stamped]
    cases hdocs : changelist_generator m f dS prev curr (some cl) o with
    | nil =>
      rw [hdocs] at hmap
      cases hmap
    | cons p rest =>
      rw [hdocs] at hmap
      simp only [List.map_cons] at hmap
      injection hmap with h1 h2
      refine ⟨p, rest, rfl, ?_, h1, ?_, ?_⟩
      · apply generator_resume_head_ordinal m f dS prev curr cl o (by omega) p
        rw [hdocs]
        rfl
      · rw [h1]
        rw [List.length_append, List.length_take, hS]
        omega
      · intro hgt
        have hrl : rest.map (fun q => q.2.resources.length)
            = (rest.map (fun q => q.2.resources)).map List.length := by
          rw [List.map_map]
          rfl
        rw [hrl, h2]
        have hjoin := chunkList_join m hm
          ((stamped dS (taggedChanges prev curr)).drop (m - cl.resources.length))
        have hlen : ((chunkList m ((stamped dS (taggedChanges prev curr)).drop
            (m - cl.resources.length))).map List.length).sum
            = ((stamped dS (taggedChanges prev curr)).drop
                (m - cl.resources.length)).length := by
          rw [← List.length_flatten, hjoin]
        rw [hlen, List.length_drop, hS]
        omega

/-! ### Well-formedness of uri-keyed dicts -/

theorem dictInsert_keys (d : Dict) (r : Resource) :
    (dictInsert d r.uri r).map (fun p => p.1) =
      if dictMem d r.uri then d.map (fun p => p.1)
      else d.map (fun p => p.1) ++ [r.uri] := by
  unfold dictInsert
  by_cases h : dictMem d r.uri
  · rw [if_pos h, if_pos h, List.map_map]
    apply List.map_congr_left
    intro p hp
    by_cases hpk : (p.1 == r.uri) = true
    · have he : p.1 = r.uri := beq_iff_eq.mp hpk
      simp [hpk, he]
    · have hne : p.1 ≠ r.uri := by simpa using hpk
      simp [hne]
  · rw [if_neg h, if_neg h]
    simp

theorem dictInsert_WF (d : Dict) (r : Resource) (hwf : DictWF d) :
    DictWF (dictInsert d r.uri r) := by
  obtain ⟨hnd, hkey⟩ := hwf
  constructor
  · rw [dictInsert_keys]
    by_cases h : dictMem d r.uri
    · rw [if_pos h]
      exact hnd
    · rw [if_neg h]
      rw [List.nodup_append]
      refine ⟨hnd, List.nodup_singleton _, ?_⟩
      intro a ha hb
      simp at hb
      subst hb
      obtain ⟨p, hp, hpk⟩ := List.mem_map.mp ha
      have hany : d.any (fun q => q.1 == r.uri) = true := by
        rw [List.any_eq_true]
        exact ⟨p, hp, beq_iff_eq.mpr hpk⟩
      unfold dictMem at h
      exact h hany
  · intro p hp
    unfold dictInsert at hp
    by_cases h : dictMem d r.uri
    · rw [if_pos h] at hp
      obtain ⟨q, hq, hqe⟩ := List.mem_map.mp hp
      by_cases hqk : (q.1 == r.uri) = true
      · rw [if_pos hqk] at hqe
        rw [← hqe]
      · rw [if_neg hqk] at hqe
        exact hqe ▸ hkey q hq
    · rw [if_neg h] at hp
      rcases List.mem_append.mp hp with hp1 | hp2
      · exact hkey p hp1
      · simp at hp2
        rw [hp2]

theorem dictFold_WF (rs : List Resource) :
    ∀ (d : Dict), DictWF d → DictWF (rs.foldl (fun d r => dictInsert d r.uri r) d) := by
  induction rs with
  | nil => intro d h; exact h
  | cons r rs ih =>
    intro d h
    exact ih _ (dictInsert_WF d r h)

theorem dictOfResources_WF (rs : List Resource) : DictWF (dictOfResources rs) :=
  dictFold_WF rs [] ⟨List.nodup_nil, by intro p hp; cases hp⟩

theorem dictGet?_mem (d : Dict) (k : String) (r : Resource)
    (h : dictGet? d k = some r) : r ∈ dictValues d := by
  unfold dictGet? at h
  cases hf : d.find? (fun p => p.1 == k) with
  | none => rw [hf] at h; cases h
  | some q =>
    rw [hf] at h
    have hqr : q.2 = r := by simpa using h
    have hmem := List.mem_of_find?_eq_some hf
    rw [← hqr]
    exact List.mem_map_of_mem (fun p => p.2) hmem

theorem dictGet?_uri (d : Dict) (hwf : DictWF d) (k : String) (r : Resource)
    (h : dictGet? d k = some r) : r.uri = k := by
  unfold dictGet? at h
  cases hf : d.find? (fun p => p.1 == k) with
  | none => rw [hf] at h; cases h
  | some q =>
    rw [hf] at h
    have hqr : q.2 = r := by simpa using h
    have hmem := List.mem_of_find?_eq_some hf
    have hpred := List.find?_some hf
    have hk : q.1 = k := by simpa using hpred
    rw [← hqr, hwf.2 q hmem, hk]

theorem dictMem_of_mem_values (d : Dict) (hwf : DictWF d) (r : Resource)
    (h : r ∈ dictValues d) : dictMem d r.uri = true := by
  obtain ⟨p, hp, hpe⟩ := List.mem_map.mp h
  unfold dictMem
  rw [List.any_eq_true]
  exact ⟨p, hp, beq_iff_eq.mpr (by rw [← hpe]; exact (hwf.2 p hp).symm)⟩

theorem dictGet?_some_of_mem (d : Dict) (k : String) (h : dictMem d k = true) :
    ∃ r, dictGet? d k = some r := by
  have := (dictMem_iff_get d k).mp h
  cases hg : dictGet? d k with
  | none => rw [hg] at this; cases this
  | some r => exact ⟨r, rfl⟩

/-! ### Hash-only classification: invariance under metadata changes -/

/-- Apply a resource transformation to every value of a dict. -/
def dictMap (g : Resource → Resource) (d : Dict) : Dict :=
  d.map (fun p => (p.1, g p.2))

theorem dictMem_dictMap (g : Resource → Resource) (d : Dict) (k : String) :
    dictMem (dictMap g d) k = dictMem d k := by
  unfold dictMem dictMap
  rw [List.any_map]
  rfl

theorem dictGet?_dictMap (g : Resource → Resource) (d : Dict) (k : String) :
    dictGet? (dictMap g d) k = (dictGet? d k).map g := by
  unfold dictGet? dictMap
  rw [List.find?_map]
  have hcomp : ((fun p : String × Resource => p.1 == k) ∘
      (fun p : String × Resource => (p.1, g p.2)))
      = (fun p : String × Resource => p.1 == k) := rfl
  rw [hcomp]
  cases d.find? (fun p => p.1 == k) <;> rfl

theorem dictValues_dictMap (g : Resource → Resource) (d : Dict) :
    dictValues (dictMap g d) = (dictValues d).map g := by
  unfold dictValues dictMap
  rw [List.map_map, List.map_map]
  rfl

theorem dictInsert_dictMap (g : Resource → Resource)
    (huri : ∀ r, (g r).uri = r.uri) (d : Dict) (r : Resource) :
    dictInsert (dictMap g d) ((g r).uri) (g r) = dictMap g (dictInsert d r.uri r) := by
  rw [huri r]
  unfold dictInsert
  rw [dictMem_dictMap]
  by_cases h : dictMem d r.uri
  · rw [if_pos h, if_pos h]
    unfold dictMap
    rw [List.map_map, List.map_map]
    apply List.map_congr_left
    intro p hp
    by_cases hpk : (p.1 == r.uri) = true
    · have he : p.1 = r.uri := beq_iff_eq.mp hpk
      simp [he]
    · have hne : p.1 ≠ r.uri := by simpa using hpk
      simp [hne]
  · rw [if_neg h, if_neg h]
    unfold dictMap
    rw [List.map_append]
    rfl

theorem dictOfResources_map (g : Resource → Resource)
    (huri : ∀ r, (g r).uri = r.uri) (rs : List Resource) :
    dictOfResources (rs.map g) = dictMap g (dictOfResources rs) := by
  have h : ∀ d : Dict,
      (rs.map g).foldl (fun d r => dictInsert d r.uri r) (dictMap g d)
        = dictMap g (rs.foldl (fun d r => dictInsert d r.uri r) d) := by
    induction rs with
    | nil => intro d; rfl
    | cons r rs ih =>
      intro d
      rw [List.map_cons, List.foldl_cons, List.foldl_cons]
      rw [dictInsert_dictMap g huri d r]
      exact ih (dictInsert d r.uri r)
  have h0 := h []
  unfold dictOfResources
  simpa [dictMap] using h0

theorem created_of_dictMap (g : Resource → Resource)
    (huri : ∀ r, (g r).uri = r.uri) (prev curr : Dict) :
    created_of (dictMap g prev) (dictMap g curr)
      = (created_of prev curr).map g := by
  unfold created_of
  rw [dictValues_dictMap, List.filter_map]
  congr 1
  apply List.filter_congr
  intro r hr
  simp only [Function.comp_apply]
  rw [huri r, dictMem_dictMap]

theorem updated_of_dictMap (g : Resource → Resource)
    (huri : ∀ r, (g r).uri = r.uri) (hmd5 : ∀ r, (g r).md5 = r.md5)
    (prev curr : Dict) :
    updated_of (dictMap g prev) (dictMap g curr)
      = (updated_of prev curr).map g := by
  unfold updated_of
  rw [dictValues_dictMap, List.filter_map]
  congr 1
  apply List.filter_congr
  intro r hr
  simp only [Function.comp_apply]
  rw [huri r, dictGet?_dictMap]
  cases hq : dictGet? prev r.uri with
  | none => rfl
  | some q =>
    show ((g r).md5 != (g q).md5) = (r.md5 != q.md5)
    rw [hmd5 r, hmd5 q]

theorem deleted_of_dictMap (g : Resource → Resource)
    (huri : ∀ r, (g r).uri = r.uri) (prev curr : Dict) :
    deleted_of (dictMap g prev) (dictMap g curr)
      = (deleted_of prev curr).map g := by
  unfold deleted_of
  rw [dictValues_dictMap, List.filter_map]
  congr 1
  apply List.filter_congr
  intro r hr
  simp only [Function.comp_apply]
  rw [huri r, dictMem_dictMap]

theorem unchanged_of_dictMap (g : Resource → Resource)
    (huri : ∀ r, (g r).uri = r.uri) (hmd5 : ∀ r, (g r).md5 = r.md5)
    (prev curr : Dict) :
    unchanged_of (dictMap g prev) (dictMap g curr)
      = (unchanged_of prev curr).map g := by
  unfold unchanged_of
  rw [dictValues_dictMap, List.filter_map]
  congr 1
  apply List.filter_congr
  intro r hr
  simp only [Function.comp_apply]
  rw [huri r, dictGet?_dictMap]
  cases hq : dictGet? prev r.uri with
  | none => rfl
  | some q =>
    show ((g r).md5 == (g q).md5) = (r.md5 == q.md5)
    rw [hmd5 r, hmd5 q]

/-- C1: the Reconciler classifies a uri present only in the live set as
created, present in both with differing md5 as updated, present only in the
previous map as deleted, and present in both with equal md5 as unchanged;
unchanged resources are never among the records added to output documents;
and classification is invariant under any transformation of the resources
that preserves uri and md5 (modification time and size are never used). -/
theorem claim_C1 (prev : Dict) (live : List Resource) (hwf : DictWF prev) :
    (∀ u r, dictGet? (dictOfResources live) u = some r →
        dictMem prev u = false → r ∈ created_of prev (dictOfResources live))
    ∧ (∀ u r p, dictGet? (dictOfResources live) u = some r →
        dictGet? prev u = some p → r.md5 ≠ p.md5 →
        r ∈ updated_of prev (dictOfResources live))
    ∧ (∀ u p, dictGet? prev u = some p →
        dictMem (dictOfResources live) u = false →
        p ∈ deleted_of prev (dictOfResources live))
    ∧ (∀ u r p, dictGet? (dictOfResources live) u = some r →
        dictGet? prev u = some p → r.md5 = p.md5 →
        r ∈ unchanged_of prev (dictOfResources live))
    ∧ (∀ r ∈ unchanged_of prev (dictOfResources live),
        ∀ kind, (kind, r) ∉ taggedChanges prev (dictOfResources live))
    ∧ (∀ mm : Nat, 1 ≤ mm → ∀ (ff : Option String) (dd : String) (oo : Int),
        ∀ q ∈ changelist_generator mm ff dd prev (dictOfResources live) none oo,
          ∀ rr ∈ q.2.resources,
            rr ∈ stamped dd (taggedChanges prev (dictOfResources live)))
    ∧ (∀ g : Resource → Resource, (∀ r, (g r).uri = r.uri) →
        (∀ r, (g r).md5 = r.md5) →
        created_of (dictMap g prev) (dictOfResources (live.map g))
            = (created_of prev (dictOfResources live)).map g
          ∧ updated_of (dictMap g prev) (dictOfResources (live.map g))
            = (updated_of prev (dictOfResources live)).map g
          ∧ deleted_of (dictMap g prev) (dictOfResources (live.map g))
            = (deleted_of prev (dictOfResources live)).map g
          ∧ unchanged_of (dictMap g prev) (dictOfResources (live.map g))
            = (unchanged_of prev (dictOfResources live)).map g) := by
  have hwfc := dictOfResources_WF live
  refine ⟨?_, ?_, ?_, ?_, ?_, ?_, ?_⟩
  · intro u r hcu hnp
    apply List.mem_filter.mpr
    refine ⟨dictGet?_mem _ _ _ hcu, ?_⟩
    rw [dictGet?_uri _ hwfc u r hcu, hnp]
    rfl
  · intro u r p hcu hpu hne
    apply List.mem_filter.mpr
    refine ⟨dictGet?_mem _ _ _ hcu, ?_⟩
    rw [dictGet?_uri _ hwfc u r hcu, hpu]
    show (r.md5 != p.md5) = true
    exact bne_iff_ne.mpr hne
  · intro u p hpu hnc
    apply List.mem_filter.mpr
    refine ⟨dictGet?_mem _ _ _ hpu, ?_⟩
    rw [dictGet?_uri _ hwf u p hpu, hnc]
    rfl
  · intro u r p hcu hpu heq
    apply List.mem_filter.mpr
    refine ⟨dictGet?_mem _ _ _ hcu, ?_⟩
    rw [dictGet?_uri _ hwfc u r hcu, hpu]
    show (r.md5 == p.md5) = true
    exact beq_iff_eq.mpr heq
  · intro r hr kind hmem
    obtain ⟨hrv, hpred⟩ := List.mem_filter.mp hr
    obtain ⟨p, hget, hmd⟩ : ∃ p, dictGet? prev r.uri = some p
        ∧ (r.md5 == p.md5) = true := by
      cases hg : dictGet? prev r.uri with
      | none => rw [hg] at hpred; cases hpred
      | some p => rw [hg] at hpred; exact ⟨p, rfl, hpred⟩
    unfold taggedChanges at hmem
    rcases List.mem_append.mp hmem with hmem1 | hmem3
    · rcases List.mem_append.mp hmem1 with hmemc | hmemu
      · obtain ⟨r2, hr2, hr2e⟩ := List.mem_map.mp hmemc
        have hr2r : r2 = r := congrArg Prod.snd hr2e
        subst hr2r
        obtain ⟨_, hpred2⟩ := List.mem_filter.mp hr2
        have : dictMem prev r2.uri = false := by
          cases hmp : dictMem prev r2.uri with
          | false => rfl
          | true => rw [hmp] at hpred2; cases hpred2
        rw [dictGet?_eq_none_of_not_mem prev r2.uri this] at hget
        cases hget
      · obtain ⟨r2, hr2, hr2e⟩ := List.mem_map.mp hmemu
        have hr2r : r2 = r := congrArg Prod.snd hr2e
        subst hr2r
        obtain ⟨_, hpred2⟩ := List.mem_filter.mp hr2
        rw [hget] at hpred2
        have hne : (r2.md5 != p.md5) = true := hpred2
        rw [bne_iff_ne] at hne
        exact hne (beq_iff_eq.mp hmd)
    · obtain ⟨r2, hr2, hr2e⟩ := List.mem_map.mp hmem3
      have hr2r : r2 = r := congrArg Prod.snd hr2e
      subst hr2r
      obtain ⟨hrp, hpred2⟩ := List.mem_filter.mp hr2
      have hmemc := dictMem_of_mem_values _ hwfc r2 hrv
      rw [hmemc] at hpred2
      cases hpred2
  · intro mm hmm ff dd oo q hq rr hrr
    have hmap := generator_fresh_map mm hmm ff dd prev (dictOfResources live) oo
    have hflat : rr ∈ (List.map (fun p => p.2.resources)
        (changelist_generator mm ff dd prev (dictOfResources live) none oo)).flatten :=
      List.mem_flatten.mpr ⟨q.2.resources,
        List.mem_map_of_mem (fun p => p.2.resources) hq, hrr⟩
    rw [hmap, chunkList_join mm hmm] at hflat
    exact hflat
  · intro g huri hmd5
    rw [dictOfResources_map g huri live]
    exact ⟨created_of_dictMap g huri prev _,
      updated_of_dictMap g huri hmd5 prev _,
      deleted_of_dictMap g huri prev _,
      unchanged_of_dictMap g huri hmd5 prev _⟩

/-! ### Concrete sample data for witnesses -/

def mkRes (u h : String) : Resource :=
  { uri := u, length := 1, lastmod := "2016-08-01", md5 := h,
    mimeType := "text/plain", change := none, md_datetime := none }

def clTwo : ChangeList :=
  { md_from := some "F", md_until := none, sitemapindex := false,
    index_link := none, resources := [mkRes "x" "h8", mkRes "z" "h9"] }

theorem claim_C1_witness :
    DictWF (dictOfResources [mkRes "a" "h1"])
    ∧ mkRes "b" "h3" ∈ created_of (dictOfResources [mkRes "a" "h1"])
        (dictOfResources [mkRes "a" "h2", mkRes "b" "h3"]) :=
  ⟨⟨by decide, by decide⟩, (claim_C1 (dictOfResources [mkRes "a" "h1"])
      [mkRes "a" "h2", mkRes "b" "h3"] ⟨by decide, by decide⟩).1 "b"
      (mkRes "b" "h3") (by decide) (by decide)⟩

theorem claim_C2_witness :
    1 ≤ 2
    ∧ (changelist_generator 2 none "T" []
          (dictOfResources [mkRes "a" "h1", mkRes "b" "h2", mkRes "c" "h3"])
          none 5).length
        = ((taggedChanges []
            (dictOfResources [mkRes "a" "h1", mkRes "b" "h2", mkRes "c" "h3"])).length
            + 2 - 1) / 2
    ∧ (changelist_generator 2 none "T" []
          (dictOfResources [mkRes "a" "h1", mkRes "b" "h2", mkRes "c" "h3"])
          none 5).length = 2 :=
  ⟨by decide,
    (claim_C2 2 (by decide) none "T" []
      (dictOfResources [mkRes "a" "h1", mkRes "b" "h2", mkRes "c" "h3"]) 5).1,
    by decide⟩

theorem claim_C3_witness :
    1 ≤ 2
    ∧ changelist_generator 2 none "T" [] (dictOfResources [mkRes "b" "h2"])
          (some clTwo) 7
        = changelist_generator 2 none "T" [] (dictOfResources [mkRes "b" "h2"])
            none 7 :=
  ⟨by decide,
    ((claim_C3 2 (by decide) none "T" [] (dictOfResources [mkRes "b" "h2"])
      clTwo 7).1 (by decide)).1⟩

/-! ## State reconstruction (`ChangelistExecutor.update_previous_state`,
lines 56-86) -/

/-- A resourcelist document: the fields `update_previous_state` reads. -/
structure ResourceListDoc where
  md_at : Option String := none
  md_completed : Option String := none
  resources : List Resource := []
deriving DecidableEq, Repr

/-- Lexicographic comparison of strings by code points (the order Python
`sorted` uses), kept executable over the character lists. -/
def charListLeb : List Char → List Char → Bool
  | [], _ => true
  | _ :: _, [] => false
  | x :: xs, y :: ys =>
    if x.toNat < y.toNat then true
    else if x.toNat = y.toNat then charListLeb xs ys
    else false

def strLeb (a b : String) : Bool := charListLeb a.data b.data

/-- `sorted(glob(...))`: files processed in filename-sorted order
(insertion sort on the name component). -/
def insertSorted (p : String × α) : List (String × α) → List (String × α)
  | [] => [p]
  | q :: qs => if strLeb p.1 q.1 then p :: q :: qs else q :: insertSorted p qs

def sortByName (l : List (String × α)) : List (String × α) :=
  l.foldr insertSorted []

/-- One changelist resource replayed against the previous state
(lines 82-86): created/updated upsert by uri, deleted removes when the uri
is present and is a no-op otherwise. -/
def replayResource (d : Dict) (r : Resource) : Dict :=
  if r.change = some "created" ∨ r.change = some "updated" then
    dictInsert d r.uri r
  else if r.change = some "deleted" ∧ dictMem d r.uri then
    dictRemove d r.uri
  else d

def replayResources (d : Dict) (rs : List Resource) : Dict :=
  rs.foldl replayResource d

def replayDocs (d : Dict) (docs : List ChangeList) : Dict :=
  docs.foldl (fun d cl => replayResources d cl.resources) d

/-- `update_previous_state`: union the resourcelist documents by uri while
recording the completion (else generated-at) timestamp, then replay the
changelist documents in filename-sorted order.  Returns
(previousResources, date_resourcelist_completed). -/
def update_previous_state (rlFiles : List (String × ResourceListDoc))
    (clFiles : List (String × ChangeList)) : Dict × Option String :=
  let rls := sortByName rlFiles
  let cls := sortByName clFiles
  let st := rls.foldl (fun st rl =>
      (rl.2.resources.foldl (fun d r => dictInsert d r.uri r) st.1,
       match rl.2.md_completed with
       | some c => some c
       | none => rl.2.md_at)) (([] : Dict), (none : Option String))
  (replayDocs st.1 (cls.map (fun p => p.2)), st.2)

/-! ### Lookup after insert and remove -/

theorem dictGet?_cons (q : String × Resource) (t : Dict) (k : String) :
    dictGet? (q :: t) k
      = if (q.1 == k) = true then some q.2 else dictGet? t k := by
  by_cases h : (q.1 == k) = true
  · rw [if_pos h]
    unfold dictGet?
    have h4 : ((fun p : String × Resource => p.1 == k) q = true) := h
    rw [List.find?_cons_of_pos t h4]
    rfl
  · rw [if_neg h]
    unfold dictGet?
    have h4 : ¬((fun p : String × Resource => p.1 == k) q = true) := h
    rw [List.find?_cons_of_neg t h4]

theorem dictMem_cons (q : String × Resource) (t : Dict) (k : String) :
    dictMem (q :: t) k = ((q.1 == k) || dictMem t k) := by
  simp [dictMem]

theorem dictGet?_map_replace (d : Dict) (k : String) (v : Resource)
    (h : dictMem d k = true) :
    dictGet? (d.map (fun p => if p.1 == k then (k, v) else p)) k = some v := by
  induction d with
  | nil => cases h
  | cons p t ih =>
    rw [List.map_cons, dictGet?_cons]
    by_cases hpk : (p.1 == k) = true
    · rw [if_pos hpk]
      rw [if_pos (show ((((k, v) : String × Resource)).1 == k) = true by simp)]
    · rw [if_neg hpk, if_neg hpk]
      apply ih
      rw [dictMem_cons] at h
      simpa [hpk] using h

theorem dictGet?_append_single (d : Dict) (k : String) (v : Resource)
    (h : dictMem d k = false) :
    dictGet? (d ++ [(k, v)]) k = some v := by
  induction d with
  | nil =>
    rw [List.nil_append, dictGet?_cons]
    rw [if_pos (by simp)]
  | cons p t ih =>
    rw [List.cons_append, dictGet?_cons]
    rw [dictMem_cons] at h
    have hpk : ¬(p.1 == k) = true := by
      intro hc
      rw [hc] at h
      simp at h
    rw [if_neg hpk]
    apply ih
    simpa [hpk] using h

theorem dictGet?_dictInsert_self (d : Dict) (k : String) (v : Resource) :
    dictGet? (dictInsert d k v) k = some v := by
  unfold dictInsert
  by_cases h : dictMem d k
  · rw [if_pos h]
    exact dictGet?_map_replace d k v h
  · rw [if_neg h]
    exact dictGet?_append_single d k v (by simpa using h)

theorem dictGet?_dictInsert_ne (d : Dict) (k : String) (v : Resource)
    (k2 : String) (hne : k2 ≠ k) :
    dictGet? (dictInsert d k v) k2 = dictGet? d k2 := by
  have hk2 : ¬(k == k2) = true := by simpa using fun hc => hne hc.symm
  unfold dictInsert
  by_cases h : dictMem d k
  · rw [if_pos h]
    induction d with
    | nil => rfl
    | cons p t ih =>
      rw [List.map_cons, dictGet?_cons, dictGet?_cons]
      by_cases hpk : (p.1 == k) = true
      · rw [if_pos hpk]
        have hp1 : p.1 = k := beq_iff_eq.mp hpk
        have h2 : ¬(p.1 == k2) = true := by rw [hp1]; exact hk2
        rw [if_neg (show ¬((((k, v) : String × Resource)).1 == k2) = true
          from hk2)]
        rw [if_neg h2]
        by_cases hmt : dictMem t k
        · exact ih hmt
        · have hmap : t.map (fun p => if p.1 == k then (k, v) else p)
              = t.map id := by
            apply List.map_congr_left
            intro q hq
            have hqk : ¬(q.1 == k) = true := fun hc => hmt (by
              unfold dictMem
              rw [List.any_eq_true]
              exact ⟨q, hq, hc⟩)
            rw [if_neg hqk]
            rfl
          rw [hmap, List.map_id]
      · rw [if_neg hpk]
        by_cases hq : (p.1 == k2) = true
        · rw [if_pos hq, if_pos hq]
        · rw [if_neg hq, if_neg hq]
          apply ih
          rw [dictMem_cons] at h
          simpa [hpk] using h
  · rw [if_neg h]
    induction d with
    | nil =>
      rw [List.nil_append, dictGet?_cons, if_neg hk2]
    | cons p t ih =>
      rw [List.cons_append, dictGet?_cons, dictGet?_cons]
      by_cases hq : (p.1 == k2) = true
      · rw [if_pos hq, if_pos hq]
      · rw [if_neg hq, if_neg hq]
        apply ih
        rw [dictMem_cons] at h
        intro hmt
        rw [hmt] at h
        simp at h

theorem dictGet?_dictRemove_self (d : Dict) (k : String) :
    dictGet? (dictRemove d k) k = none := by
  unfold dictRemove
  induction d with
  | nil => rfl
  | cons p t ih =>
    by_cases h : ((p.1 != k) = true)
    · have h4 : ((fun q : String × Resource => q.1 != k) p = true) := h
      rw [@List.filter_cons_of_pos (String × Resource)
        (fun q => q.1 != k) p t h4, dictGet?_cons]
      have hne : ¬(p.1 == k) = true := by simpa using h
      rw [if_neg hne]
      exact ih
    · have h4 : ¬((fun q : String × Resource => q.1 != k) p = true) := h
      rw [@List.filter_cons_of_neg (String × Resource)
        (fun q => q.1 != k) p t h4]
      exact ih

theorem dictGet?_dictRemove_ne (d : Dict) (k k2 : String) (hne : k2 ≠ k) :
    dictGet? (dictRemove d k) k2 = dictGet? d k2 := by
  unfold dictRemove
  induction d with
  | nil => rfl
  | cons p t ih =>
    by_cases h : ((p.1 != k) = true)
    · have h4 : ((fun q : String × Resource => q.1 != k) p = true) := h
      rw [@List.filter_cons_of_pos (String × Resource)
        (fun q => q.1 != k) p t h4, dictGet?_cons, dictGet?_cons]
      by_cases hq : (p.1 == k2) = true
      · rw [if_pos hq, if_pos hq]
      · rw [if_neg hq, if_neg hq]
        exact ih
    · have h4 : ¬((fun q : String × Resource => q.1 != k) p = true) := h
      rw [@List.filter_cons_of_neg (String × Resource)
        (fun q => q.1 != k) p t h4, dictGet?_cons]
      have hp1 : p.1 = k := by simpa using h
      have hq : ¬(p.1 == k2) = true := by
        rw [hp1]
        simpa using fun hc => hne hc.symm
      rw [if_neg hq]
      exact ih

/-- A changelist resource as parsed back from disk, with its change kind. -/
def crRes : Resource := { mkRes "a" "h1" with change := some "created" }

/-- C4 (amended): state reconstruction replays created/updated resources as
upserts by uri and deleted resources as removals that are no-ops when the
uri is absent; with no resourcelist files the baseline timestamp is null,
and with no files at all the state is the empty map with a null timestamp
(with changelist files but no resourcelist files, the state is the
changelist replay over the empty map, not necessarily empty). -/
theorem claim_C4 :
    (∀ (d : Dict) (r : Resource),
        r.change = some "created" ∨ r.change = some "updated" →
        replayResource d r = dictInsert d r.uri r
          ∧ dictGet? (replayResource d r) r.uri = some r)
    ∧ (∀ (d : Dict) (r : Resource), r.change = some "deleted" →
        dictGet? (replayResource d r) r.uri = none
          ∧ (∀ u, u ≠ r.uri → dictGet? (replayResource d r) u = dictGet? d u)
          ∧ (dictMem d r.uri = false → replayResource d r = d))
    ∧ (∀ clFiles, (update_previous_state [] clFiles).2 = none)
    ∧ update_previous_state [] [] = ([], none) := by
  refine ⟨?_, ?_, fun _ => rfl, rfl⟩
  · intro d r h
    unfold replayResource
    rw [if_pos h]
    exact ⟨rfl, dictGet?_dictInsert_self d r.uri r⟩
  · intro d r h
    have hno : ¬(r.change = some "created" ∨ r.change = some "updated") := by
      rw [h]
      intro hc
      rcases hc with hc | hc <;> simp at hc
    unfold replayResource
    rw [if_neg hno]
    by_cases hmem : dictMem d r.uri
    · rw [if_pos ⟨h, hmem⟩]
      refine ⟨dictGet?_dictRemove_self d r.uri, ?_, ?_⟩
      · intro u hu
        exact dictGet?_dictRemove_ne d r.uri u hu
      · intro hf
        rw [hf] at hmem
        cases hmem
    · rw [if_neg (fun hc => hmem hc.2)]
      refine ⟨?_, fun u _ => rfl, fun _ => rfl⟩
      exact dictGet?_eq_none_of_not_mem d r.uri (by simpa using hmem)

/-- C4 as stated is refuted: with no resourcelist files but a changelist
file holding a created resource, reconstruction returns a non-empty map. -/
theorem claim_C4_counterexample :
    (update_previous_state []
      [("changelist_0000.xml",
        { md_from := none, md_until := none, sitemapindex := false,
          index_link := none, resources := [crRes] })]).1 ≠ [] := by
  decide

theorem claim_C4_witness :
    (crRes.change = some "created" ∨ crRes.change = some "updated")
    ∧ replayResource [] crRes = dictInsert [] crRes.uri crRes :=
  ⟨Or.inl rfl, (claim_C4.1 [] crRes (Or.inl rfl)).1⟩

/-! ## Closing superseded changelists
(`NewChangelistExecutor.post_process_documents`, lines 166-174) -/

/-- The per-file body of `post_process_documents`: read the document, and if
`md_until` is unset, set it to the run start time and rewrite (the Bool
records whether `save_sitemap` was called for the file). -/
def close_changelist (dStart : String) (cl : ChangeList) : ChangeList × Bool :=
  if cl.md_until = none then ({ cl with md_until := some dStart }, true)
  else (cl, false)

/-- `post_process_documents` over the changelist files discovered before the
run: a no-op unless at least one new document was generated and sitemap
saving is enabled. -/
def post_process_documents (numNewDocs : Nat) (saving : Bool) (dStart : String)
    (files : List ChangeList) : List (ChangeList × Bool) :=
  if numNewDocs > 0 ∧ saving = true then files.map (close_changelist dStart)
  else files.map (fun cl => (cl, false))

/-- C6: after a run that produced at least one document with saving enabled,
every previously discovered changelist whose validUntil is unset gets
validUntil = run start time and is rewritten; a changelist whose validUntil
is already set is left untouched, so the closing happens exactly once and a
closed changelist is never modified by a later run. -/
theorem claim_C6 (numNewDocs : Nat) (hnew : numNewDocs > 0) (dStart : String)
    (files : List ChangeList) :
    post_process_documents numNewDocs true dStart files
        = files.map (close_changelist dStart)
    ∧ (∀ cl, cl.md_until = none →
        close_changelist dStart cl = ({ cl with md_until := some dStart }, true))
    ∧ (∀ cl u, cl.md_until = some u → close_changelist dStart cl = (cl, false))
    ∧ (∀ cl dS2, close_changelist dS2 (close_changelist dStart cl).1
        = ((close_changelist dStart cl).1, false))
    ∧ (∀ saving, ¬(numNewDocs > 0 ∧ saving = true) →
        post_process_documents numNewDocs saving dStart files
          = files.map (fun cl => (cl, false))) := by
  refine ⟨?_, ?_, ?_, ?_, ?_⟩
  · unfold post_process_documents
    rw [if_pos ⟨hnew, rfl⟩]
  · intro cl h
    unfold close_changelist
    rw [if_pos h]
  · intro cl u h
    unfold close_changelist
    rw [if_neg (by rw [h]; intro hc; cases hc)]
  · intro cl dS2
    unfold close_changelist
    by_cases h : cl.md_until = none
    · rw [if_pos h]
      rw [if_neg (by intro hc; cases hc)]
    · rw [if_neg h]
      rw [if_neg h]
  · intro saving h
    unfold post_process_documents
    rw [if_neg h]

theorem claim_C6_witness :
    (1 : Nat) > 0
    ∧ post_process_documents 1 true "NOW" [clTwo]
        = [clTwo].map (close_changelist "NOW") :=
  ⟨by decide, (claim_C6 1 (by decide) "NOW" [clTwo]).1⟩

/-! ## Selection of the change log start timestamp
(`NewChangelistExecutor.generate_rs_documents`, lines 152-157, and
`IncrementalChangelistExecutor.generate_rs_documents`, line 184) -/

/-- Lines 154-157: `date_changelist_from` under the new-changelist strategy:
the resourcelist completion time when no changelist file exists, else the
run start time. -/
def new_changelist_from (changelist_files : List String)
    (date_resourcelist_completed : Option String) (dStart : String) :
    Option String :=
  if changelist_files.length = 0 then date_resourcelist_completed
  else some dStart

/-- Line 184: `date_changelist_from` under the incremental strategy: always
the resourcelist completion time. -/
def inc_changelist_from (date_resourcelist_completed : Option String) :
    Option String :=
  date_resourcelist_completed

/-- C7: under newIncrementalLog, changelogFrom is the run start time when at
least one changelist file exists and the baseline completion time when none
exists; under continuedIncrementalLog it is always the baseline completion
time. -/
theorem claim_C7 (files : List String) (base : Option String)
    (dStart : String) :
    (files ≠ [] → new_changelist_from files base dStart = some dStart)
    ∧ (files = [] → new_changelist_from files base dStart = base)
    ∧ inc_changelist_from base = base := by
  refine ⟨?_, ?_, rfl⟩
  · intro h
    unfold new_changelist_from
    rw [if_neg (by simpa using h)]
  · intro h
    subst h
    rfl

theorem claim_C7_witness :
    (["changelist_0000.xml"] : List String) ≠ []
    ∧ new_changelist_from ["changelist_0000.xml"] (some "BASE") "NOW"
        = some "NOW" :=
  ⟨by decide, (claim_C7 ["changelist_0000.xml"] (some "BASE") "NOW").1
    (by decide)⟩

/-! ## Ordinal discovery (`Executor.find_ordinal`,
`rspub/core/executors.py` lines 211-218 and `model/executors.py`
lines 257-264; the two copies are identical up to path handling) -/

theorem charListLeb_refl : ∀ a : List Char, charListLeb a a = true := by
  intro a
  induction a with
  | nil => rfl
  | cons x xs ih =>
    unfold charListLeb
    rw [if_neg (by omega), if_pos rfl]
    exact ih

theorem charListLeb_total : ∀ a b : List Char,
    charListLeb a b = true ∨ charListLeb b a = true := by
  intro a
  induction a with
  | nil => intro b; exact Or.inl rfl
  | cons x xs ih =>
    intro b
    cases b with
    | nil => exact Or.inr rfl
    | cons y ys =>
      unfold charListLeb
      by_cases hxy : x.toNat < y.toNat
      · exact Or.inl (by rw [if_pos hxy])
      · by_cases heq : x.toNat = y.toNat
        · rcases ih ys with h | h
          · exact Or.inl (by rw [if_neg hxy, if_pos heq]; exact h)
          · refine Or.inr ?_
            rw [if_neg (by omega : ¬ y.toNat < x.toNat),
              if_pos (by omega : y.toNat = x.toNat)]
            exact h
        · exact Or.inr (by rw [if_pos (by omega : y.toNat < x.toNat)])

theorem charListLeb_trans : ∀ a b c : List Char,
    charListLeb a b = true → charListLeb b c = true →
    charListLeb a c = true := by
  intro a
  induction a with
  | nil => intro b c _ _; rfl
  | cons x xs ih =>
    intro b c hab hbc
    cases b with
    | nil => cases hab
    | cons y ys =>
      cases c with
      | nil => cases hbc
      | cons z zs =>
        unfold charListLeb at hab hbc ⊢
        by_cases hxy : x.toNat < y.toNat
        · rw [if_pos hxy] at hab
          by_cases hyz : y.toNat < z.toNat
          · rw [if_pos (by omega : x.toNat < z.toNat)]
          · by_cases heq : y.toNat = z.toNat
            · rw [if_pos (by omega : x.toNat < z.toNat)]
            · rw [if_neg hyz, if_neg heq] at hbc
              cases hbc
        · by_cases hxyeq : x.toNat = y.toNat
          · rw [if_neg hxy, if_pos hxyeq] at hab
            by_cases hyz : y.toNat < z.toNat
            · rw [if_pos (by omega : x.toNat < z.toNat)]
            · by_cases heq : y.toNat = z.toNat
              · rw [if_neg hyz, if_pos heq] at hbc
                rw [if_neg (by omega : ¬ x.toNat < z.toNat),
                  if_pos (by omega : x.toNat = z.toNat)]
                exact ih ys zs hab hbc
              · rw [if_neg hyz, if_neg heq] at hbc
                cases hbc
          · rw [if_neg hxy, if_neg hxyeq] at hab
            cases hab

instance : IsTotal String (fun a b => strLeb a b = true) :=
  ⟨fun a b => charListLeb_total a.data b.data⟩

instance : IsTrans String (fun a b => strLeb a b = true) :=
  ⟨fun a b c => charListLeb_trans a.data b.data c.data⟩

/-- Prefix test on character lists (`String.isPrefixOf` does not reduce in
the kernel, so the check is kept on the character lists). -/
def listPrefixOf : List Char → List Char → Bool
  | [], _ => true
  | _ :: _, [] => false
  | x :: xs, y :: ys => (x == y) && listPrefixOf xs ys

/-- The glob pattern `{capability}_*.xml` on a bare filename. -/
def globMatch (capability : String) (name : String) : Bool :=
  listPrefixOf (capability ++ "_").data name.data
    && listPrefixOf (".xml" : String).data.reverse name.data.reverse

/-- `re.findall("\\d+", filename)` restricted to its first hit: the first
maximal run of decimal digits, if any. -/
def firstDigitRun : List Char → Option (List Char)
  | [] => none
  | c :: cs =>
    if c.isDigit then some (c :: cs.takeWhile (fun x => x.isDigit))
    else firstDigitRun cs

/-- `int(digits[0])` on a digit run. -/
def digitsToNat (ds : List Char) : Nat :=
  ds.foldl (fun n c => n * 10 + (c.toNat - 48)) 0

/-- `Executor.find_ordinal`: sort the files matching `{capability}_*.xml`,
take the last, and return its first digit run as a number (`0` when the name
has no digits), or `-1` when no file matches. -/
def find_ordinal (capability : String) (files : List String) : Int :=
  match (List.insertionSort (fun a b => strLeb a b = true)
      (files.filter (globMatch capability))).getLast? with
  | none => -1
  | some name =>
    match firstDigitRun name.data with
    | some ds => Int.ofNat (digitsToNat ds)
    | none => 0

theorem firstDigitRun_cons (c : Char) (cs : List Char) :
    firstDigitRun (c :: cs) =
      if c.isDigit then some (c :: cs.takeWhile (fun x => x.isDigit))
      else firstDigitRun cs := rfl

theorem firstDigitRun_append_nodigit (xs ys : List Char)
    (h : ∀ c ∈ xs, c.isDigit = false) :
    firstDigitRun (xs ++ ys) = firstDigitRun ys := by
  induction xs with
  | nil => rfl
  | cons c cs ih =>
    rw [List.cons_append, firstDigitRun_cons]
    rw [if_neg (by simp [h c (List.mem_cons_self c cs)])]
    exact ih (fun c2 hc2 => h c2 (List.mem_cons_of_mem c hc2))

theorem takeWhile_all_append (xs : List Char) (y : Char) (ys : List Char)
    (hall : ∀ c ∈ xs, c.isDigit = true) (hy : y.isDigit = false) :
    (xs ++ y :: ys).takeWhile (fun x => x.isDigit) = xs := by
  induction xs with
  | nil =>
    rw [List.nil_append, List.takeWhile_cons]
    rw [hy]
    rfl
  | cons c cs ih =>
    rw [List.cons_append, List.takeWhile_cons]
    rw [hall c (List.mem_cons_self c cs)]
    rw [ih (fun c2 hc2 => hall c2 (List.mem_cons_of_mem c hc2))]
    rw [if_pos rfl]

theorem firstDigitRun_digits (ds : List Char) (rest : List Char) (y : Char)
    (hds : ds ≠ []) (hall : ∀ c ∈ ds, c.isDigit = true)
    (hy : y.isDigit = false) :
    firstDigitRun (ds ++ y :: rest) = some ds := by
  cases ds with
  | nil => exact absurd rfl hds
  | cons d dt =>
    rw [List.cons_append, firstDigitRun_cons]
    rw [if_pos (hall d (List.mem_cons_self d dt))]
    rw [takeWhile_all_append dt y rest
      (fun c hc => hall c (List.mem_cons_of_mem d hc)) hy]

theorem mem_of_getLast?_eq (l : List α) (a : α) (h : l.getLast? = some a) :
    a ∈ l := by
  induction l with
  | nil => cases h
  | cons x t ih =>
    cases t with
    | nil =>
      have hxa : x = a := by simpa using h
      rw [hxa]
      exact List.mem_cons_self a []
    | cons y t2 =>
      rw [List.getLast?_cons_cons] at h
      exact List.mem_cons_of_mem x (ih h)

theorem sorted_le_getLast? (l : List String)
    (hs : l.Sorted (fun a b => strLeb a b = true)) :
    ∀ x ∈ l, ∀ la, l.getLast? = some la → strLeb x la = true := by
  induction l with
  | nil => intro x hx; cases hx
  | cons a t ih =>
    intro x hx la hla
    cases t with
    | nil =>
      have hxa : x = a := by simpa using hx
      have haa : a = la := by simpa using hla
      rw [hxa, haa]
      exact charListLeb_refl la.data
    | cons b t2 =>
      rw [List.getLast?_cons_cons] at hla
      rcases List.mem_cons.mp hx with hxa | hxt
      · subst hxa
        have hmem : la ∈ b :: t2 := mem_of_getLast?_eq _ _ hla
        exact List.rel_of_sorted_cons hs la hmem
      · exact ih (List.Sorted.of_cons hs) x hxt la hla

/-- C8: on a store whose files matching `{capability}_*.xml` all carry a
numeric suffix (and a capability name without digits, as all the Capability
enum names are), `find_ordinal` returns the numeric suffix of the
lexicographically last matching file, and `-1` when no file matches. -/
theorem claim_C8 (capability : String) (files : List String)
    (hcap : ∀ c ∈ capability.data, c.isDigit = false)
    (hwf : ∀ name ∈ files, globMatch capability name = true →
      ∃ ds : List Char, ds ≠ [] ∧ (∀ c ∈ ds, c.isDigit = true)
        ∧ name = capability ++ "_" ++ String.mk ds ++ ".xml") :
    (files.filter (globMatch capability) = [] →
      find_ordinal capability files = -1)
    ∧ (∀ last,
        (List.insertionSort (fun a b => strLeb a b = true)
          (files.filter (globMatch capability))).getLast? = some last →
        (last ∈ files ∧ globMatch capability last = true)
        ∧ (∀ f ∈ files, globMatch capability f = true → strLeb f last = true)
        ∧ ∃ ds : List Char, ds ≠ [] ∧ (∀ c ∈ ds, c.isDigit = true)
            ∧ last = capability ++ "_" ++ String.mk ds ++ ".xml"
            ∧ find_ordinal capability files = Int.ofNat (digitsToNat ds)) := by
  constructor
  · intro h
    unfold find_ordinal
    rw [h]
    rfl
  · intro last hlast
    have hperm := List.perm_insertionSort (fun a b => strLeb a b = true)
      (files.filter (globMatch capability))
    have hmem : last ∈ files.filter (globMatch capability) :=
      hperm.mem_iff.mp (mem_of_getLast?_eq _ _ hlast)
    have hmem2 := List.mem_filter.mp hmem
    obtain ⟨ds, hds, hdig, hform⟩ := hwf last hmem2.1 hmem2.2
    refine ⟨⟨hmem2.1, hmem2.2⟩, ?_, ds, hds, hdig, hform, ?_⟩
    · intro f hf hfm
      have hfs : f ∈ List.insertionSort (fun a b => strLeb a b = true)
          (files.filter (globMatch capability)) :=
        hperm.mem_iff.mpr (List.mem_filter.mpr ⟨hf, hfm⟩)
      exact sorted_le_getLast? _
        (List.sorted_insertionSort (fun a b => strLeb a b = true) _) f hfs
        last hlast
    · unfold find_ordinal
      rw [hlast]
      simp only []
      have hdata : last.data = capability.data
          ++ ('_' :: (ds ++ ('.' :: ('x' :: ('m' :: ('l' :: [])))))) := by
        rw [hform]
        repeat rw [String.data_append]
        simp [String.mk]
      rw [hdata]
      rw [firstDigitRun_append_nodigit capability.data _ hcap]
      have h2 : ('_' :: (ds ++ ('.' :: ('x' :: ('m' :: ('l' :: []))))))
          = ['_'] ++ (ds ++ ('.' :: ('x' :: ('m' :: ('l' :: []))))) := rfl
      rw [h2]
      rw [firstDigitRun_append_nodigit ['_'] _
        (by intro c hc; simp at hc; rw [hc]; rfl)]
      rw [firstDigitRun_digits ds _ '.' hds hdig rfl]

theorem claim_C8_witness :
    (∀ c ∈ ("changelist" : String).data, c.isDigit = false)
    ∧ (∀ name ∈ ["changelist_0002.xml", "changelist_0010.xml", "other.txt"],
        globMatch "changelist" name = true →
        ∃ ds : List Char, ds ≠ [] ∧ (∀ c ∈ ds, c.isDigit = true)
          ∧ name = "changelist" ++ "_" ++ String.mk ds ++ ".xml")
    ∧ ("changelist_0010.xml"
          ∈ ["changelist_0002.xml", "changelist_0010.xml", "other.txt"]
        ∧ globMatch "changelist" "changelist_0010.xml" = true) := by
  have hcap : ∀ c ∈ ("changelist" : String).data, c.isDigit = false := by
    decide
  have hwf : ∀ name ∈ ["changelist_0002.xml", "changelist_0010.xml",
        "other.txt"], globMatch "changelist" name = true →
      ∃ ds : List Char, ds ≠ [] ∧ (∀ c ∈ ds, c.isDigit = true)
        ∧ name = "changelist" ++ "_" ++ String.mk ds ++ ".xml" := by
    intro name hname hmatch
    fin_cases hname
    · exact ⟨['0', '0', '0', '2'], by decide, by decide, by decide⟩
    · exact ⟨['0', '0', '1', '0'], by decide, by decide, by decide⟩
    · exact absurd hmatch (by decide)
  exact ⟨hcap, hwf,
    ((claim_C8 "changelist" ["changelist_0002.xml", "changelist_0010.xml",
        "other.txt"] hcap hwf).2 "changelist_0010.xml" (by decide)).1⟩

/-! ## Guarded clearing of the metadata directory
(`Executor.clear_metadata_dir`, `rspub/core/executors.py` lines 153-164) -/

/-- Suffix test on names, over character lists. -/
def strEndsWith (suffix s : String) : Bool :=
  listPrefixOf suffix.data.reverse s.data.reverse

/-- Modelled from the spec: `Observable.observers_confirm` (`util/observe.py`
is not among the sources); it polls every registered observer synchronously
and the confirmation fails as soon as any observer vetoes. -/
def observers_confirm (votes : List Bool) : Bool := votes.all id

def WELL_KNOWN : String := ".well-known/resourcesync"

/-- `clear_metadata_dir`: ask the observers to confirm; a veto raises
`ObserverInterruptException` before anything is removed (the Bool result
records the raised interrupt); otherwise remove every `*.xml` file and the
well-known description file.  The store is the list of files in the
metadata directory. -/
def clear_metadata_dir (votes : List Bool) (store : List String) :
    List String × Bool :=
  if observers_confirm votes then
    let s1 := store.filter (fun n => !(strEndsWith ".xml" n))
    (s1.filter (fun n => n != WELL_KNOWN), false)
  else (store, true)

/-- C9: when any registered observer vetoes, `clear_metadata_dir` raises the
interrupt before deleting anything and the store is exactly as before; when
no observer vetoes, all `*.xml` files and the well-known description file
are removed and nothing else. -/
theorem claim_C9 (votes : List Bool) (store : List String) :
    ((∃ v ∈ votes, v = false) → clear_metadata_dir votes store = (store, true))
    ∧ (observers_confirm votes = true →
        clear_metadata_dir votes store
            = ((store.filter (fun n => !(strEndsWith ".xml" n))).filter
                (fun n => n != WELL_KNOWN), false)
          ∧ (∀ n, n ∈ (clear_metadata_dir votes store).1 ↔
              n ∈ store ∧ strEndsWith ".xml" n = false ∧ n ≠ WELL_KNOWN)) := by
  constructor
  · rintro ⟨v, hv, hvf⟩
    unfold clear_metadata_dir
    rw [if_neg]
    intro hall
    unfold observers_confirm at hall
    rw [List.all_eq_true] at hall
    have := hall v hv
    rw [hvf] at this
    cases this
  · intro h
    constructor
    · unfold clear_metadata_dir
      rw [if_pos h]
    · intro n
      unfold clear_metadata_dir
      rw [if_pos h]
      simp only [List.mem_filter]
      constructor
      · rintro ⟨⟨hn, hx⟩, hw⟩
        refine ⟨hn, by simpa using hx, by simpa using hw⟩
      · rintro ⟨hn, hx, hw⟩
        exact ⟨⟨hn, by simp [hx]⟩, by simpa using hw⟩

theorem claim_C9_witness :
    (∃ v ∈ [true, false], v = false)
    ∧ clear_metadata_dir [true, false]
        ["changelist_0000.xml", ".well-known/resourcesync", "notes.txt"]
      = (["changelist_0000.xml", ".well-known/resourcesync", "notes.txt"],
          true) :=
  ⟨⟨false, by decide, rfl⟩,
    (claim_C9 [true, false]
      ["changelist_0000.xml", ".well-known/resourcesync", "notes.txt"]).1
      ⟨false, by decide, rfl⟩⟩

/-! ## Changelist index construction
(`ChangelistExecutor.create_index`, lines 31-54).  `uri_from_path` is
modelled as the identity on file names. -/

def storeGet (store : List (String × ChangeList)) (name : String) :
    ChangeList :=
  ((store.find? (fun p => p.1 == name)).map (fun p => p.2)).getD {}

/-- One entry of the changelist index (line 45-46): the file's uri carrying
the file's own validity window read back from disk. -/
def indexEntry (store : List (String × ChangeList)) (name : String) :
    Resource :=
  { uri := name, length := 0, lastmod := "", md5 := "", mimeType := "",
    change := none, md_datetime := none,
    md_from := (storeGet store name).md_from,
    md_until := (storeGet store name).md_until }

def isChangelistFile (name : String) : Bool := globMatch "changelist" name

/-- `create_index`: remove any existing `changelist-index.xml`
unconditionally; when more than one changelist file exists, build the index
document and, only when saving is enabled, set each changelist's missing
index link (rewriting the file) and write the index document
(`finish_sitemap` persists only when `is_saving_sitemaps`). -/
def create_index (saving : Bool) (baseline : Option String)
    (store : List (String × ChangeList)) : List (String × ChangeList) :=
  let s1 := store.filter (fun p => p.1 != "changelist-index.xml")
  let clNames := List.insertionSort (fun a b => strLeb a b = true)
    ((s1.map (fun p => p.1)).filter isChangelistFile)
  if clNames.length > 1 then
    let s2 := if saving then
        s1.map (fun p => if isChangelistFile p.1 then
            (p.1, if p.2.index_link = none
              then { p.2 with index_link := some "changelist-index.xml" }
              else p.2)
          else p)
      else s1
    let index : ChangeList :=
      { md_from := baseline, md_until := none, sitemapindex := true,
        index_link := none, resources := clNames.map (indexEntry s1) }
    if saving then s2 ++ [("changelist-index.xml", index)] else s2
  else s1

/-- C10: even with sitemap saving disabled, `create_index` deletes an
existing `changelist-index.xml` from the store (so a dry run is not free of
on-disk mutations); every other write is suppressed, so the result is
exactly the store without the index file. -/
theorem claim_C10 (b : Option String) (store : List (String × ChangeList)) :
    create_index false b store
        = store.filter (fun p => p.1 != "changelist-index.xml")
    ∧ (∀ d, ("changelist-index.xml", d) ∈ store →
        (create_index false b store).length < store.length) := by
  have h1 : create_index false b store
      = store.filter (fun p => p.1 != "changelist-index.xml") := by
    unfold create_index
    simp
  refine ⟨h1, ?_⟩
  intro d hd
  rw [h1]
  apply List.length_filter_lt_length_iff_exists.mpr
  exact ⟨("changelist-index.xml", d), hd, by simp⟩

theorem claim_C10_witness :
    ("changelist-index.xml", ({} : ChangeList))
        ∈ [("changelist-index.xml", ({} : ChangeList))]
    ∧ (create_index false none
        [("changelist-index.xml", ({} : ChangeList))]).length
      < ([("changelist-index.xml", ({} : ChangeList))]).length :=
  ⟨List.mem_cons_self _ _,
    (claim_C10 none [("changelist-index.xml", ({} : ChangeList))]).2 {}
      (List.mem_cons_self _ _)⟩

/-! ## Idempotence machinery: pointwise characterisation of replay -/

/-- The effect of replaying a resource list on the lookup at a single uri. -/
def replayLookup (u : String) (L : List Resource) (o : Option Resource) :
    Option Resource :=
  L.foldl (fun o r =>
    if r.uri = u then
      if r.change = some "created" ∨ r.change = some "updated" then some r
      else if r.change = some "deleted" then none
      else o
    else o) o

theorem replayLookup_nil (u : String) (o : Option Resource) :
    replayLookup u [] o = o := rfl

theorem replayLookup_cons (u : String) (r : Resource) (L : List Resource)
    (o : Option Resource) :
    replayLookup u (r :: L) o = replayLookup u L
      (if r.uri = u then
        if r.change = some "created" ∨ r.change = some "updated" then some r
        else if r.change = some "deleted" then none
        else o
      else o) := rfl

theorem replayLookup_append (u : String) (A B : List Resource)
    (o : Option Resource) :
    replayLookup u (A ++ B) o = replayLookup u B (replayLookup u A o) := by
  unfold replayLookup
  rw [List.foldl_append]

theorem replayResource_lookup_ne (d : Dict) (r : Resource) (u : String)
    (hne : r.uri ≠ u) :
    dictGet? (replayResource d r) u = dictGet? d u := by
  unfold replayResource
  by_cases h1 : r.change = some "created" ∨ r.change = some "updated"
  · rw [if_pos h1]
    exact dictGet?_dictInsert_ne d r.uri r u (fun hc => hne hc.symm)
  · rw [if_neg h1]
    by_cases h2 : r.change = some "deleted" ∧ dictMem d r.uri
    · rw [if_pos h2]
      exact dictGet?_dictRemove_ne d r.uri u (fun hc => hne hc.symm)
    · rw [if_neg h2]

/-- Pointwise characterisation: a replayed lookup is the fold of the
per-resource effects over the starting lookup. -/
theorem replayResources_lookup (u : String) :
    ∀ (L : List Resource) (d : Dict),
      dictGet? (replayResources d L) u = replayLookup u L (dictGet? d u) := by
  intro L
  induction L with
  | nil => intro d; rfl
  | cons r L ih =>
    intro d
    have hstep : replayResources d (r :: L)
        = replayResources (replayResource d r) L := rfl
    rw [hstep, ih, replayLookup_cons]
    congr 1
    by_cases hu : r.uri = u
    · rw [if_pos hu]
      by_cases h1 : r.change = some "created" ∨ r.change = some "updated"
      · rw [if_pos h1]
        unfold replayResource
        rw [if_pos h1, ← hu]
        exact dictGet?_dictInsert_self d r.uri r
      · rw [if_neg h1]
        by_cases h2 : r.change = some "deleted"
        · rw [if_pos h2]
          unfold replayResource
          rw [if_neg h1]
          by_cases h3 : dictMem d r.uri
          · rw [if_pos ⟨h2, h3⟩, ← hu]
            exact dictGet?_dictRemove_self d r.uri
          · rw [if_neg (fun hc => h3 hc.2), ← hu]
            exact dictGet?_eq_none_of_not_mem d r.uri (by simpa using h3)
        · rw [if_neg h2]
          unfold replayResource
          rw [if_neg h1, if_neg (fun hc => h2 hc.1)]
    · rw [if_neg hu]
      exact replayResource_lookup_ne d r u hu

theorem replayLookup_no_touch (u : String) (L : List Resource)
    (h : ∀ r ∈ L, r.uri ≠ u) (o : Option Resource) :
    replayLookup u L o = o := by
  induction L generalizing o with
  | nil => rfl
  | cons r L ih =>
    rw [replayLookup_cons]
    rw [if_neg (h r (List.mem_cons_self r L))]
    exact ih (fun r2 h2 => h r2 (List.mem_cons_of_mem r h2)) o

/-- Folding a list whose unique element at uri `u` is an upsert yields that
element, whatever the starting lookup. -/
theorem replayLookup_single_upsert (u : String) (L : List Resource)
    (hnd : (L.map (fun r => r.uri)).Nodup) (r0 : Resource) (hr0 : r0 ∈ L)
    (hu : r0.uri = u)
    (hk : r0.change = some "created" ∨ r0.change = some "updated")
    (o : Option Resource) :
    replayLookup u L o = some r0 := by
  induction L generalizing o with
  | nil => cases hr0
  | cons x L ih =>
    rw [List.map_cons, List.nodup_cons] at hnd
    rcases List.mem_cons.mp hr0 with he | hmem
    · subst he
      rw [replayLookup_cons, if_pos hu, if_pos hk]
      apply replayLookup_no_touch
      intro r2 h2 hc
      apply hnd.1
      rw [hu, ← hc]
      exact List.mem_map_of_mem _ h2
    · have hxu : x.uri ≠ u := by
        intro hc
        apply hnd.1
        rw [hc, ← hu]
        exact List.mem_map_of_mem _ hmem
      rw [replayLookup_cons, if_neg hxu]
      exact ih hnd.2 hmem o

/-- Folding a list whose unique element at uri `u` is a deletion yields
`none`, whatever the starting lookup. -/
theorem replayLookup_single_delete (u : String) (L : List Resource)
    (hnd : (L.map (fun r => r.uri)).Nodup) (r0 : Resource) (hr0 : r0 ∈ L)
    (hu : r0.uri = u) (hk : r0.change = some "deleted")
    (o : Option Resource) :
    replayLookup u L o = none := by
  induction L generalizing o with
  | nil => cases hr0
  | cons x L ih =>
    rw [List.map_cons, List.nodup_cons] at hnd
    rcases List.mem_cons.mp hr0 with he | hmem
    · subst he
      rw [replayLookup_cons, if_pos hu]
      rw [if_neg (by rw [hk]; intro hc; rcases hc with hc | hc <;> simp at hc)]
      rw [if_pos hk]
      apply replayLookup_no_touch
      intro r2 h2 hc
      apply hnd.1
      rw [hu, ← hc]
      exact List.mem_map_of_mem _ h2
    · have hxu : x.uri ≠ u := by
        intro hc
        apply hnd.1
        rw [hc, ← hu]
        exact List.mem_map_of_mem _ hmem
      rw [replayLookup_cons, if_neg hxu]
      exact ih hnd.2 hmem o

/-- Each per-uri replay is either the identity or a constant function. -/
theorem replayLookup_const_or_id (u : String) (L : List Resource) :
    (∀ o, replayLookup u L o = o)
    ∨ (∀ o o2, replayLookup u L o = replayLookup u L o2) := by
  induction L with
  | nil => exact Or.inl (fun o => rfl)
  | cons r L ih =>
    by_cases hu : r.uri = u
    · by_cases h1 : r.change = some "created" ∨ r.change = some "updated"
      · refine Or.inr (fun o o2 => ?_)
        simp only [replayLookup_cons, if_pos hu, if_pos h1]
      · by_cases h2 : r.change = some "deleted"
        · refine Or.inr (fun o o2 => ?_)
          simp only [replayLookup_cons, if_pos hu, if_neg h1, if_pos h2]
        · rcases ih with hid | hconst
          · refine Or.inl (fun o => ?_)
            simp only [replayLookup_cons, if_pos hu, if_neg h1, if_neg h2]
            exact hid o
          · refine Or.inr (fun o o2 => ?_)
            simp only [replayLookup_cons, if_pos hu, if_neg h1, if_neg h2]
            exact hconst _ _
    · rcases ih with hid | hconst
      · refine Or.inl (fun o => ?_)
        simp only [replayLookup_cons, if_neg hu]
        exact hid o
      · refine Or.inr (fun o o2 => ?_)
        simp only [replayLookup_cons, if_neg hu]
        exact hconst _ _

/-- Replaying the same resource list twice in a row changes nothing at the
lookup level. -/
theorem replayLookup_idem (u : String) (L : List Resource)
    (o : Option Resource) :
    replayLookup u L (replayLookup u L o) = replayLookup u L o := by
  rcases replayLookup_const_or_id u L with hid | hconst
  · rw [hid, hid]
  · exact hconst _ _

/-! ### Well-formedness through replay, and value lookups -/

theorem dictRemove_WF (d : Dict) (k : String) (hwf : DictWF d) :
    DictWF (dictRemove d k) := by
  obtain ⟨hnd, hkey⟩ := hwf
  constructor
  · apply List.Nodup.sublist _ hnd
    exact List.Sublist.map _ (List.filter_sublist d)
  · intro p hp
    exact hkey p (List.mem_of_mem_filter hp)

theorem replayResource_WF (d : Dict) (r : Resource) (hwf : DictWF d) :
    DictWF (replayResource d r) := by
  unfold replayResource
  by_cases h1 : r.change = some "created" ∨ r.change = some "updated"
  · rw [if_pos h1]
    exact dictInsert_WF d r hwf
  · rw [if_neg h1]
    by_cases h2 : r.change = some "deleted" ∧ dictMem d r.uri
    · rw [if_pos h2]
      exact dictRemove_WF d r.uri hwf
    · rw [if_neg h2]
      exact hwf

theorem replayResources_WF (L : List Resource) :
    ∀ (d : Dict), DictWF d → DictWF (replayResources d L) := by
  induction L with
  | nil => intro d h; exact h
  | cons r L ih =>
    intro d h
    exact ih (replayResource d r) (replayResource_WF d r h)

theorem dictGet?_of_mem_values (d : Dict) (hwf : DictWF d) (r : Resource)
    (h : r ∈ dictValues d) : dictGet? d r.uri = some r := by
  obtain ⟨hnd, hkey⟩ := hwf
  induction d with
  | nil => cases h
  | cons p t ih =>
    rw [List.map_cons, List.nodup_cons] at hnd
    rcases List.mem_map.mp h with ⟨q, hq, hqe⟩
    rcases List.mem_cons.mp hq with he | hmem
    · subst he
      rw [dictGet?_cons]
      rw [if_pos (by rw [← hqe, hkey q (List.mem_cons_self q t)]; simp)]
      rw [hqe]
    · rw [dictGet?_cons]
      have hru : r.uri ∈ t.map (fun p => p.1) := by
        rw [← hqe, hkey q (List.mem_cons_of_mem p hmem)]
        exact List.mem_map_of_mem _ hmem
      rw [if_neg (by
        intro hc
        apply hnd.1
        rw [beq_iff_eq.mp hc]
        exact hru)]
      exact ih (by rw [← hqe]; exact List.mem_map_of_mem _ hmem) hnd.2
        (fun q2 hq2 => hkey q2 (List.mem_cons_of_mem p hq2))

theorem values_uri_nodup (d : Dict) (hwf : DictWF d) :
    ((dictValues d).map (fun r => r.uri)).Nodup := by
  obtain ⟨hnd, hkey⟩ := hwf
  have he : (dictValues d).map (fun r => r.uri) = d.map (fun p => p.1) := by
    unfold dictValues
    rw [List.map_map]
    apply List.map_congr_left
    intro p hp
    exact hkey p hp
  rw [he]
  exact hnd

theorem values_uri_inject (d : Dict) (hwf : DictWF d) (r1 r2 : Resource)
    (h1 : r1 ∈ dictValues d) (h2 : r2 ∈ dictValues d)
    (he : r1.uri = r2.uri) : r1 = r2 := by
  have g1 := dictGet?_of_mem_values d hwf r1 h1
  have g2 := dictGet?_of_mem_values d hwf r2 h2
  rw [he] at g1
  rw [g1] at g2
  simpa using g2

/-! ### Classification membership, both directions -/

theorem stamp_uri (kind dS : String) (r : Resource) :
    (stamp kind dS r).uri = r.uri := rfl

theorem stamp_md5 (kind dS : String) (r : Resource) :
    (stamp kind dS r).md5 = r.md5 := rfl

theorem stamp_change (kind dS : String) (r : Resource) :
    (stamp kind dS r).change = some kind := rfl

theorem created_of_spec (prev curr : Dict) (r : Resource)
    (hr : r ∈ created_of prev curr) :
    r ∈ dictValues curr ∧ dictGet? prev r.uri = none := by
  obtain ⟨hv, hpred⟩ := List.mem_filter.mp hr
  refine ⟨hv, dictGet?_eq_none_of_not_mem prev r.uri ?_⟩
  cases hm2 : dictMem prev r.uri
  · rfl
  · rw [hm2] at hpred
    cases hpred

theorem updated_of_spec (prev curr : Dict) (r : Resource)
    (hr : r ∈ updated_of prev curr) :
    r ∈ dictValues curr
      ∧ ∃ p, dictGet? prev r.uri = some p ∧ r.md5 ≠ p.md5 := by
  obtain ⟨hv, hpred⟩ := List.mem_filter.mp hr
  refine ⟨hv, ?_⟩
  cases hg : dictGet? prev r.uri with
  | none => rw [hg] at hpred; cases hpred
  | some p =>
    rw [hg] at hpred
    exact ⟨p, rfl, bne_iff_ne.mp hpred⟩

theorem deleted_of_spec (prev curr : Dict) (r : Resource)
    (hr : r ∈ deleted_of prev curr) :
    r ∈ dictValues prev ∧ dictMem curr r.uri = false := by
  obtain ⟨hv, hpred⟩ := List.mem_filter.mp hr
  refine ⟨hv, ?_⟩
  cases hm2 : dictMem curr r.uri
  · rfl
  · rw [hm2] at hpred
    cases hpred

theorem mem_created_of (prev curr : Dict) (hwfc : DictWF curr) (u : String)
    (r : Resource) (hc : dictGet? curr u = some r)
    (hp : dictGet? prev u = none) : r ∈ created_of prev curr := by
  apply List.mem_filter.mpr
  refine ⟨dictGet?_mem _ _ _ hc, ?_⟩
  rw [dictGet?_uri _ hwfc u r hc]
  have hm2 : dictMem prev u = false := by
    cases hm3 : dictMem prev u
    · rfl
    · obtain ⟨v, hv⟩ := dictGet?_some_of_mem prev u hm3
      rw [hv] at hp
      cases hp
  rw [hm2]
  rfl

theorem mem_updated_of (prev curr : Dict) (hwfc : DictWF curr) (u : String)
    (r p : Resource) (hc : dictGet? curr u = some r)
    (hp : dictGet? prev u = some p) (hne : r.md5 ≠ p.md5) :
    r ∈ updated_of prev curr := by
  apply List.mem_filter.mpr
  refine ⟨dictGet?_mem _ _ _ hc, ?_⟩
  rw [dictGet?_uri _ hwfc u r hc, hp]
  show (r.md5 != p.md5) = true
  exact bne_iff_ne.mpr hne

theorem mem_deleted_of (prev curr : Dict) (hwfp : DictWF prev) (u : String)
    (p : Resource) (hp : dictGet? prev u = some p)
    (hc : dictMem curr u = false) : p ∈ deleted_of prev curr := by
  apply List.mem_filter.mpr
  refine ⟨dictGet?_mem _ _ _ hp, ?_⟩
  rw [dictGet?_uri _ hwfp u p hp, hc]
  rfl

/-! ### The stamped change records split into their three segments -/

theorem stamped_taggedChanges (dS : String) (prev curr : Dict) :
    stamped dS (taggedChanges prev curr)
      = (created_of prev curr).map (fun r => stamp "created" dS r)
        ++ (updated_of prev curr).map (fun r => stamp "updated" dS r)
        ++ (deleted_of prev curr).map (fun r => stamp "deleted" dS r) := by
  unfold stamped taggedChanges
  rw [List.map_append, List.map_append, List.map_map, List.map_map,
    List.map_map]
  rfl

theorem created_stamped_nodup (dS : String) (prev curr : Dict)
    (hwfc : DictWF curr) :
    (((created_of prev curr).map (fun r => stamp "created" dS r)).map
      (fun r => r.uri)).Nodup := by
  rw [List.map_map]
  have he : ((fun r : Resource => r.uri) ∘ (fun r => stamp "created" dS r))
      = fun r : Resource => r.uri := rfl
  rw [he]
  apply List.Nodup.sublist _ (values_uri_nodup curr hwfc)
  apply List.Sublist.map
  exact List.filter_sublist _

theorem updated_stamped_nodup (dS : String) (prev curr : Dict)
    (hwfc : DictWF curr) :
    (((updated_of prev curr).map (fun r => stamp "updated" dS r)).map
      (fun r => r.uri)).Nodup := by
  rw [List.map_map]
  have he : ((fun r : Resource => r.uri) ∘ (fun r => stamp "updated" dS r))
      = fun r : Resource => r.uri := rfl
  rw [he]
  apply List.Nodup.sublist _ (values_uri_nodup curr hwfc)
  apply List.Sublist.map
  exact List.filter_sublist _

theorem deleted_stamped_nodup (dS : String) (prev curr : Dict)
    (hwfp : DictWF prev) :
    (((deleted_of prev curr).map (fun r => stamp "deleted" dS r)).map
      (fun r => r.uri)).Nodup := by
  rw [List.map_map]
  have he : ((fun r : Resource => r.uri) ∘ (fun r => stamp "deleted" dS r))
      = fun r : Resource => r.uri := rfl
  rw [he]
  apply List.Nodup.sublist _ (values_uri_nodup prev hwfp)
  apply List.Sublist.map
  exact List.filter_sublist _

/-- Pointwise effect of replaying one run's stamped classification over the
previous state: created uris gain the stamped live resource, updated uris
are overwritten with it, unchanged uris keep their previous entry, deleted
uris disappear, and absent uris stay absent. -/
theorem lookup_after_replay (dS : String) (prev curr : Dict)
    (hwfp : DictWF prev) (hwfc : DictWF curr) (u : String) :
    replayLookup u (stamped dS (taggedChanges prev curr)) (dictGet? prev u)
      = match dictGet? curr u, dictGet? prev u with
        | some r, none => some (stamp "created" dS r)
        | some r, some p =>
            if r.md5 = p.md5 then some p else some (stamp "updated" dS r)
        | none, _ => none := by
  rw [stamped_taggedChanges, replayLookup_append, replayLookup_append]
  cases hc : dictGet? curr u with
  | some r =>
    have huri : r.uri = u := dictGet?_uri curr hwfc u r hc
    have hDnt : ∀ x ∈ (deleted_of prev curr).map (fun r => stamp "deleted" dS r),
        x.uri ≠ u := by
      intro x hx hxu
      obtain ⟨r2, hr2, he⟩ := List.mem_map.mp hx
      obtain ⟨_, hm2⟩ := deleted_of_spec prev curr r2 hr2
      rw [← he, stamp_uri] at hxu
      rw [hxu] at hm2
      have hms : dictMem curr u = true :=
        (dictMem_iff_get curr u).mpr (by rw [hc]; rfl)
      rw [hm2] at hms
      cases hms
    cases hp : dictGet? prev u with
    | none =>
      have hUnt : ∀ x ∈ (updated_of prev curr).map (fun r => stamp "updated" dS r),
          x.uri ≠ u := by
        intro x hx hxu
        obtain ⟨r2, hr2, he⟩ := List.mem_map.mp hx
        obtain ⟨_, p2, hg2, _⟩ := updated_of_spec prev curr r2 hr2
        rw [← he, stamp_uri] at hxu
        rw [hxu, hp] at hg2
        cases hg2
      rw [replayLookup_single_upsert u _
        (created_stamped_nodup dS prev curr hwfc) (stamp "created" dS r)
        (List.mem_map_of_mem _ (mem_created_of prev curr hwfc u r hc hp))
        (by rw [stamp_uri]; exact huri) (Or.inl rfl)]
      rw [replayLookup_no_touch u _ hUnt, replayLookup_no_touch u _ hDnt]
    | some p =>
      have hCnt : ∀ x ∈ (created_of prev curr).map (fun r => stamp "created" dS r),
          x.uri ≠ u := by
        intro x hx hxu
        obtain ⟨r2, hr2, he⟩ := List.mem_map.mp hx
        obtain ⟨_, hg2⟩ := created_of_spec prev curr r2 hr2
        rw [← he, stamp_uri] at hxu
        rw [hxu, hp] at hg2
        cases hg2
      by_cases hmd : r.md5 = p.md5
      · have hUnt : ∀ x ∈ (updated_of prev curr).map
            (fun r => stamp "updated" dS r), x.uri ≠ u := by
          intro x hx hxu
          obtain ⟨r2, hr2, he⟩ := List.mem_map.mp hx
          obtain ⟨hv2, p2, hg2, hne2⟩ := updated_of_spec prev curr r2 hr2
          rw [← he, stamp_uri] at hxu
          have hr2r : r2 = r := values_uri_inject curr hwfc r2 r hv2
            (dictGet?_mem curr u r hc) (by rw [hxu, huri])
          subst hr2r
          rw [hxu, hp] at hg2
          have hp2 : p = p2 := by simpa using hg2
          rw [← hp2] at hne2
          exact hne2 hmd
        rw [replayLookup_no_touch u _ hCnt, replayLookup_no_touch u _ hUnt,
          replayLookup_no_touch u _ hDnt]
        simp only []
        rw [if_pos hmd]
      · rw [replayLookup_no_touch u _ hCnt]
        rw [replayLookup_single_upsert u _
          (updated_stamped_nodup dS prev curr hwfc) (stamp "updated" dS r)
          (List.mem_map_of_mem _ (mem_updated_of prev curr hwfc u r p hc hp hmd))
          (by rw [stamp_uri]; exact huri) (Or.inr rfl)]
        rw [replayLookup_no_touch u _ hDnt]
        simp only []
        rw [if_neg hmd]
  | none =>
    have hnone : dictMem curr u = false := by
      cases hmm : dictMem curr u
      · rfl
      · obtain ⟨v, hv⟩ := dictGet?_some_of_mem curr u hmm
        rw [hc] at hv
        cases hv
    have hCnt : ∀ x ∈ (created_of prev curr).map (fun r => stamp "created" dS r),
        x.uri ≠ u := by
      intro x hx hxu
      obtain ⟨r2, hr2, he⟩ := List.mem_map.mp hx
      obtain ⟨hv2, _⟩ := created_of_spec prev curr r2 hr2
      have hm2 := dictMem_of_mem_values curr hwfc r2 hv2
      rw [← he, stamp_uri] at hxu
      rw [hxu, hnone] at hm2
      cases hm2
    have hUnt : ∀ x ∈ (updated_of prev curr).map (fun r => stamp "updated" dS r),
        x.uri ≠ u := by
      intro x hx hxu
      obtain ⟨r2, hr2, he⟩ := List.mem_map.mp hx
      obtain ⟨hv2, _⟩ := updated_of_spec prev curr r2 hr2
      have hm2 := dictMem_of_mem_values curr hwfc r2 hv2
      rw [← he, stamp_uri] at hxu
      rw [hxu, hnone] at hm2
      cases hm2
    cases hp : dictGet? prev u with
    | some p =>
      rw [replayLookup_no_touch u _ hCnt, replayLookup_no_touch u _ hUnt]
      rw [replayLookup_single_delete u _
        (deleted_stamped_nodup dS prev curr hwfp) (stamp "deleted" dS p)
        (List.mem_map_of_mem _ (mem_deleted_of prev curr hwfp u p hp hnone))
        (by rw [stamp_uri]; exact dictGet?_uri prev hwfp u p hp) rfl]
    | none =>
      have hDnt : ∀ x ∈ (deleted_of prev curr).map
          (fun r => stamp "deleted" dS r), x.uri ≠ u := by
        intro x hx hxu
        obtain ⟨r2, hr2, he⟩ := List.mem_map.mp hx
        obtain ⟨hv2, _⟩ := deleted_of_spec prev curr r2 hr2
        have hg2 := dictGet?_of_mem_values prev hwfp r2 hv2
        rw [← he, stamp_uri] at hxu
        rw [hxu, hp] at hg2
        cases hg2
      rw [replayLookup_no_touch u _ hCnt, replayLookup_no_touch u _ hUnt,
        replayLookup_no_touch u _ hDnt]

/-- Any state whose lookups equal the previous state overwritten by one
run's stamped classification reconciles cleanly against the same live set:
nothing is created, updated or deleted, and everything is unchanged. -/
theorem classification_empty_of_lookup (dS : String) (prev curr X : Dict)
    (hwfp : DictWF prev) (hwfc : DictWF curr) (hwfX : DictWF X)
    (hlook : ∀ u, dictGet? X u
      = replayLookup u (stamped dS (taggedChanges prev curr))
          (dictGet? prev u)) :
    created_of X curr = [] ∧ updated_of X curr = []
      ∧ deleted_of X curr = [] ∧ unchanged_of X curr = dictValues curr := by
  have hsome : ∀ r ∈ dictValues curr,
      ∃ q, dictGet? X r.uri = some q ∧ q.md5 = r.md5 := by
    intro r hr
    have hcr := dictGet?_of_mem_values curr hwfc r hr
    have hchar := hlook r.uri
    rw [lookup_after_replay dS prev curr hwfp hwfc r.uri] at hchar
    rw [hcr] at hchar
    cases hp : dictGet? prev r.uri with
    | none =>
      rw [hp] at hchar
      simp only [] at hchar
      exact ⟨stamp "created" dS r, hchar, rfl⟩
    | some p =>
      rw [hp] at hchar
      simp only [] at hchar
      by_cases hmd : r.md5 = p.md5
      · rw [if_pos hmd] at hchar
        exact ⟨p, hchar, hmd.symm⟩
      · rw [if_neg hmd] at hchar
        exact ⟨stamp "updated" dS r, hchar, rfl⟩
  refine ⟨?_, ?_, ?_, ?_⟩
  · unfold created_of
    rw [List.filter_eq_nil_iff]
    intro r hr
    obtain ⟨q, hq, _⟩ := hsome r hr
    have hms : dictMem X r.uri = true :=
      (dictMem_iff_get X r.uri).mpr (by rw [hq]; rfl)
    rw [hms]
    intro hc
    cases hc
  · unfold updated_of
    rw [List.filter_eq_nil_iff]
    intro r hr
    obtain ⟨q, hq, hqm⟩ := hsome r hr
    rw [hq]
    intro hc
    exact (bne_iff_ne.mp hc) hqm.symm
  · unfold deleted_of
    rw [List.filter_eq_nil_iff]
    intro q hq
    have hX : dictGet? X q.uri = some q := dictGet?_of_mem_values X hwfX q hq
    rw [hlook, lookup_after_replay dS prev curr hwfp hwfc q.uri] at hX
    cases hcu : dictGet? curr q.uri with
    | none =>
      rw [hcu] at hX
      simp only [] at hX
      cases hX
    | some r =>
      have hms : dictMem curr q.uri = true :=
        (dictMem_iff_get curr q.uri).mpr (by rw [hcu]; rfl)
      rw [hms]
      intro hc
      cases hc
  · unfold unchanged_of
    rw [List.filter_eq_self]
    intro r hr
    obtain ⟨q, hq, hqm⟩ := hsome r hr
    rw [hq]
    exact beq_iff_eq.mpr hqm.symm

/-- The state a second run reconstructs from the previous state and the
documents emitted by the first run's changelist generator: every emitted
document is replayed, in order, over the previous resources. -/
def secondRunState (m : Nat) (f : Option String) (dS : String)
    (prev curr : Dict) (resume : Option ChangeList) (o : Int) : Dict :=
  replayResources prev
    (((changelist_generator m f dS prev curr resume o).map
      (fun p => p.2.resources)).flatten)

/-- C5: a second run over the state reconstructed from the documents the
first run emitted, with the same live set, classifies nothing as created,
updated or deleted (everything is unchanged).  The fresh-sequence conjunct
covers the new-changelist strategy; the resume conjunct covers the
incremental strategy, whose previous state necessarily ends with its own
resume document replayed last. -/
theorem claim_C5 (m : Nat) (hm : 1 ≤ m) (f : Option String) (dS : String)
    (prev : Dict) (hwf : DictWF prev) (live : List Resource) (o : Int) :
    (created_of (secondRunState m f dS prev (dictOfResources live) none o)
        (dictOfResources live) = []
      ∧ updated_of (secondRunState m f dS prev (dictOfResources live) none o)
        (dictOfResources live) = []
      ∧ deleted_of (secondRunState m f dS prev (dictOfResources live) none o)
        (dictOfResources live) = []
      ∧ unchanged_of (secondRunState m f dS prev (dictOfResources live) none o)
        (dictOfResources live) = dictValues (dictOfResources live))
    ∧ (∀ (resume : ChangeList) (p0 : Dict),
        prev = replayResources p0 resume.resources →
        created_of (secondRunState m f dS prev (dictOfResources live)
            (some resume) o) (dictOfResources live) = []
        ∧ updated_of (secondRunState m f dS prev (dictOfResources live)
            (some resume) o) (dictOfResources live) = []
        ∧ deleted_of (secondRunState m f dS prev (dictOfResources live)
            (some resume) o) (dictOfResources live) = []) := by
  have hwfc := dictOfResources_WF live
  have hfresh : created_of (secondRunState m f dS prev (dictOfResources live)
        none o) (dictOfResources live) = []
      ∧ updated_of (secondRunState m f dS prev (dictOfResources live) none o)
        (dictOfResources live) = []
      ∧ deleted_of (secondRunState m f dS prev (dictOfResources live) none o)
        (dictOfResources live) = []
      ∧ unchanged_of (secondRunState m f dS prev (dictOfResources live)
        none o) (dictOfResources live)
          = dictValues (dictOfResources live) := by
    have hflat : (((changelist_generator m f dS prev (dictOfResources live)
          none o).map (fun p => p.2.resources)).flatten)
        = stamped dS (taggedChanges prev (dictOfResources live)) := by
      rw [generator_fresh_map m hm f dS prev (dictOfResources live) o,
        chunkList_join m hm]
    unfold secondRunState
    rw [hflat]
    exact classification_empty_of_lookup dS prev (dictOfResources live) _
      hwf hwfc
      (replayResources_WF (stamped dS (taggedChanges prev
        (dictOfResources live))) prev hwf)
      (fun u => replayResources_lookup u
        (stamped dS (taggedChanges prev (dictOfResources live))) prev)
  refine ⟨hfresh, ?_⟩
  intro resume p0 hprev
  by_cases hk : resume.resources.length ≥ m
  · have hge := changelist_generator_resume_ge m f dS prev
      (dictOfResources live) resume o hk
    unfold secondRunState
    rw [hge]
    exact ⟨hfresh.1, hfresh.2.1, hfresh.2.2.1⟩
  · have hklt : resume.resources.length < m := by omega
    by_cases htags : taggedChanges prev (dictOfResources live) = []
    · -- no changes at all: the generator emits nothing, the state is prev
      have htot : (created_of prev (dictOfResources live)).length
          + (updated_of prev (dictOfResources live)).length
          + (deleted_of prev (dictOfResources live)).length = 0 := by
        have h1 := taggedChanges_length prev (dictOfResources live)
        rw [htags] at h1
        simpa using h1.symm
      have hempty : created_of prev (dictOfResources live) = []
          ∧ updated_of prev (dictOfResources live) = []
          ∧ deleted_of prev (dictOfResources live) = [] := by
        refine ⟨?_, ?_, ?_⟩ <;> rw [← List.length_eq_zero] <;> omega
      have hdocs : changelist_generator m f dS prev (dictOfResources live)
          (some resume) o = [] := by
        rw [changelist_generator_resume_lt m f dS prev (dictOfResources live)
          resume o hk]
        rw [htags, genLoop_nil]
        simp only []
        rw [if_neg (by omega)]
        rfl
      unfold secondRunState
      rw [hdocs]
      simp only [List.map_nil, List.flatten_nil]
      exact ⟨hempty.1, hempty.2.1, hempty.2.2⟩
    · -- changes exist: the resumed document is replayed again, then the run
      have hflat : (((changelist_generator m f dS prev (dictOfResources live)
            (some resume) o).map (fun p => p.2.resources)).flatten)
          = resume.resources
            ++ stamped dS (taggedChanges prev (dictOfResources live)) := by
        rw [generator_resume_map m f dS prev (dictOfResources live) resume o
          hklt htags]
        rw [List.flatten_cons, chunkList_join m hm, List.append_assoc,
          List.take_append_drop]
      have happ : ∀ (d : Dict) (A B : List Resource),
          replayResources d (A ++ B) = replayResources (replayResources d A) B := by
        intro d A B
        unfold replayResources
        rw [List.foldl_append]
      have hlook : ∀ u, dictGet? (secondRunState m f dS prev
            (dictOfResources live) (some resume) o) u
          = replayLookup u (stamped dS (taggedChanges prev
              (dictOfResources live))) (dictGet? prev u) := by
        intro u
        have e1 : dictGet? (secondRunState m f dS prev (dictOfResources live)
              (some resume) o) u
            = replayLookup u (stamped dS (taggedChanges prev
                (dictOfResources live)))
              (dictGet? (replayResources prev resume.resources) u) := by
          unfold secondRunState
          rw [hflat, happ]
          exact replayResources_lookup u _ _
        have e2 : dictGet? (replayResources prev resume.resources) u
            = dictGet? prev u := by
          rw [replayResources_lookup u resume.resources prev, hprev,
            replayResources_lookup u resume.resources p0, replayLookup_idem]
        rw [e1, e2]
      have hwfX : DictWF (secondRunState m f dS prev (dictOfResources live)
          (some resume) o) := by
        unfold secondRunState
        exact replayResources_WF _ prev hwf
      have := classification_empty_of_lookup dS prev (dictOfResources live)
        (secondRunState m f dS prev (dictOfResources live) (some resume) o)
        hwf hwfc hwfX hlook
      exact ⟨this.1, this.2.1, this.2.2.1⟩

theorem claim_C5_witness :
    1 ≤ 2
    ∧ DictWF ([] : Dict)
    ∧ created_of (secondRunState 2 none "T" []
        (dictOfResources [mkRes "a" "h1"]) none 3)
        (dictOfResources [mkRes "a" "h1"]) = [] :=
  ⟨by decide, ⟨by decide, by decide⟩,
    ((claim_C5 2 (by decide) none "T" [] ⟨by decide, by decide⟩
      [mkRes "a" "h1"] 3).1).1⟩

end RsPub
